import Mathlib

set_option maxHeartbeats 1000000
set_option maxRecDepth 100000
set_option linter.unusedSectionVars false

/-!
Verification of the text-comparison core of the Smart Recitation Tracker
(`app.py`).  The repository's comparison engine is built on Python's
`difflib.SequenceMatcher` (with `isjunk = None` and the default
`autojunk = True`), `str.split()`, `str.strip()` and a handful of regex
substitutions.  This file gives a shallow embedding of those semantics over
`List Char` (strings) and `List (List Char)` (word sequences):

* `pyIsSpace` — the Python `str`/`re` whitespace class;
* `splitWs` — `str.split()` with no argument (split on whitespace runs);
* `popularList` — `SequenceMatcher.__chain_b`'s autojunk "popular" elements
  of `b` (only when `len(b) >= 200`; with `isjunk = None` the `bjunk` set is
  always empty, so only popularity matters);
* `bestBlock`/`findLongestMatch` — `SequenceMatcher.find_longest_match`:
  the dynamic-programming scan finds, among common blocks consisting
  entirely of non-popular elements, a longest one, returning the first such
  maximal block in scan order (smallest start in `a`, then smallest start in
  `b` — the behaviour documented for `find_longest_match`); the subsequent
  extension loops then widen that block over arbitrary equal elements
  (the `bjunk` tests in those loops are vacuous as `bjunk = ∅`);
* `matchingBlocksAux`/`matchingBlocks` — `get_matching_blocks` (recursive
  splitting, then merging of adjacent blocks, then the `(la, lb, 0)`
  sentinel);
* `opcodesAux`/`getOpcodes` — `get_opcodes`;
* `diffOf`/`getDiffWords` — `get_diff_words` from `app.py`;
* `seqRatio`/`similarityPercent` — `SequenceMatcher.ratio()` and
  `round(ratio * 100, 2)` from `main`, over exact rationals with Python's
  banker's rounding;
* `normalizeArabic` — `normalize_arabic` from `app.py`;
* `highlightDifferences` — `highlight_differences` from `app.py`.
-/

namespace Recitation

/-- Model of the Python `str`/`re` whitespace class (`str.isspace`, `\s`):
ASCII space, `\t`–`\r`, the information separators, NEL, NBSP and the
Unicode space characters. -/
def pyIsSpace (c : Char) : Bool :=
  c.val = 0x20 || (0x9 ≤ c.val && c.val ≤ 0xD) || (0x1C ≤ c.val && c.val ≤ 0x1F) ||
  c.val = 0x85 || c.val = 0xA0 || c.val = 0x1680 ||
  (0x2000 ≤ c.val && c.val ≤ 0x200A) || c.val = 0x2028 || c.val = 0x2029 ||
  c.val = 0x202F || c.val = 0x205F || c.val = 0x3000

/-- Word accumulator for `splitWs`; `acc` is the current word reversed. -/
def splitWsAux : List Char → List Char → List (List Char)
  | [], acc => if acc = [] then [] else [acc.reverse]
  | c :: cs, acc =>
    if pyIsSpace c then
      (if acc = [] then [] else [acc.reverse]) ++ splitWsAux cs []
    else splitWsAux cs (c :: acc)

/-- Model of Python `str.split()` with no separator: split on runs of
whitespace, never producing empty words. -/
def splitWs (s : List Char) : List (List Char) :=
  splitWsAux s []

/-- Model of Python `" ".join(parts)`. -/
def joinWs : List (List Char) → List Char
  | [] => []
  | [w] => w
  | w :: ws => w ++ ' ' :: joinWs ws

variable {α : Type} [DecidableEq α]

/-- Length of the longest common prefix of two lists (the run of equal
elements the `find_longest_match` extension loops walk over). -/
def commonRun : List α → List α → Nat
  | x :: xs, y :: ys => if x = y then commonRun xs ys + 1 else 0
  | _, _ => 0

/-- Length of the longest common prefix of two lists avoiding the
"popular" (autojunk) elements `P`.  This is the length of the diagonal
chain the `find_longest_match` dynamic program builds through `b2j`, from
which popular elements have been purged. -/
def runNP (P : List α) : List α → List α → Nat
  | x :: xs, y :: ys => if x = y ∧ x ∉ P then runNP P xs ys + 1 else 0
  | _, _ => 0

/-- The autojunk "popular" elements of `b`, as computed by
`SequenceMatcher.__chain_b`: when `len(b) >= 200`, every element occurring
more than `len(b) // 100 + 1` times. -/
def popularList (b : List α) : List α :=
  if 200 ≤ b.length then b.dedup.filter (fun x => decide (b.length / 100 + 1 < b.count x))
  else []

/-- All candidate block positions `(i, j)` with the length of the
non-popular common run starting there, in the scan order of the
`find_longest_match` dynamic program (`i` outer and increasing, `j` inner
and increasing). -/
def blockCands (P a b : List α) : List (Nat × Nat × Nat) :=
  (List.range a.length).flatMap fun i =>
    (List.range b.length).map fun j => (i, j, runNP P (a.drop i) (b.drop j))

/-- The longest non-popular common-run length over all candidate
positions. -/
def maxRun (P a b : List α) : Nat :=
  (blockCands P a b).foldr (fun c m => max c.2.2 m) 0

/-- The block selected by the `find_longest_match` dynamic program: the
first candidate in scan order realizing the maximal non-popular run
length (`(alo, blo, 0)`, here `(0, 0, 0)`, if there is none). -/
def bestBlock (P a b : List α) : Nat × Nat × Nat :=
  match (blockCands P a b).find? (fun c => c.2.2 = maxRun P a b) with
  | some c => c
  | none => (0, 0, 0)

/-- Model of `SequenceMatcher.find_longest_match` on the (sub)sequences
`a`, `b` with global popular set `P`: the dynamic-programming best block,
then the extension loops, which (with `bjunk = ∅`) extend it left and
right over arbitrary equal elements. -/
def findLongestMatch (P a b : List α) : Nat × Nat × Nat :=
  let t := bestBlock P a b
  let e := commonRun ((a.take t.1).reverse) ((b.take t.2.1).reverse)
  let f := commonRun (a.drop (t.1 + t.2.2)) (b.drop (t.2.1 + t.2.2))
  (t.1 - e, t.2.1 - e, t.2.2 + e + f)

theorem commonRun_le_left (x y : List α) : commonRun x y ≤ x.length := by
  induction x generalizing y with
  | nil => simp [commonRun]
  | cons a xs ih =>
    cases y with
    | nil => simp [commonRun]
    | cons b ys =>
      simp only [commonRun]
      split
      · simpa using Nat.succ_le_succ (ih ys)
      · simp

theorem commonRun_le_right (x y : List α) : commonRun x y ≤ y.length := by
  induction x generalizing y with
  | nil => simp [commonRun]
  | cons a xs ih =>
    cases y with
    | nil => simp [commonRun]
    | cons b ys =>
      simp only [commonRun]
      split
      · simpa using Nat.succ_le_succ (ih ys)
      · simp

theorem runNP_le_left (P : List α) (x y : List α) : runNP P x y ≤ x.length := by
  induction x generalizing y with
  | nil => simp [runNP]
  | cons a xs ih =>
    cases y with
    | nil => simp [runNP]
    | cons b ys =>
      simp only [runNP]
      split
      · simpa using Nat.succ_le_succ (ih ys)
      · simp

theorem runNP_le_right (P : List α) (x y : List α) : runNP P x y ≤ y.length := by
  induction x generalizing y with
  | nil => simp [runNP]
  | cons a xs ih =>
    cases y with
    | nil => simp [runNP]
    | cons b ys =>
      simp only [runNP]
      split
      · simpa using Nat.succ_le_succ (ih ys)
      · simp

theorem runNP_nil_left (P : List α) (y : List α) : runNP P [] y = 0 := by
  cases y <;> rfl

theorem runNP_nil_right (P : List α) (x : List α) : runNP P x [] = 0 := by
  cases x <;> rfl

theorem mem_blockCands {P a b : List α} {c : Nat × Nat × Nat} :
    c ∈ blockCands P a b ↔
      c.1 < a.length ∧ c.2.1 < b.length ∧
        c.2.2 = runNP P (a.drop c.1) (b.drop c.2.1) := by
  obtain ⟨i, j, k⟩ := c
  simp only [blockCands, List.mem_flatMap, List.mem_map, List.mem_range, Prod.mk.injEq]
  constructor
  · rintro ⟨i', hi', j', hj', rfl, rfl, rfl⟩
    exact ⟨hi', hj', rfl⟩
  · rintro ⟨hi, hj, hk⟩
    exact ⟨i, hi, j, hj, rfl, rfl, hk.symm⟩

theorem foldr_max_le {l : List (Nat × Nat × Nat)} {c : Nat × Nat × Nat}
    (hc : c ∈ l) : c.2.2 ≤ l.foldr (fun c m => max c.2.2 m) 0 := by
  induction l with
  | nil => cases hc
  | cons d l ih =>
    rcases List.mem_cons.1 hc with rfl | h
    · exact Nat.le_max_left _ _
    · exact (ih h).trans (Nat.le_max_right _ _)

theorem foldr_max_attained (l : List (Nat × Nat × Nat)) :
    l.foldr (fun c m => max c.2.2 m) 0 = 0 ∨
      ∃ c ∈ l, c.2.2 = l.foldr (fun c m => max c.2.2 m) 0 := by
  induction l with
  | nil => exact Or.inl rfl
  | cons d l ih =>
    simp only [List.foldr_cons]
    rcases Nat.le_total d.2.2 (l.foldr (fun c m => max c.2.2 m) 0) with h | h
    · rw [Nat.max_eq_right h]
      rcases ih with h0 | ⟨c, hc, hck⟩
      · rw [h0]; rw [h0] at h
        exact Or.inr ⟨d, List.mem_cons_self _ _, Nat.le_antisymm h (Nat.zero_le _)⟩
      · exact Or.inr ⟨c, List.mem_cons_of_mem _ hc, hck⟩
    · rw [Nat.max_eq_left h]
      exact Or.inr ⟨d, List.mem_cons_self _ _, rfl⟩

theorem le_maxRun {P a b : List α} {c : Nat × Nat × Nat}
    (hc : c ∈ blockCands P a b) : c.2.2 ≤ maxRun P a b :=
  foldr_max_le hc

theorem runNP_le_maxRun (P a b : List α) (i j : Nat) :
    runNP P (a.drop i) (b.drop j) ≤ maxRun P a b := by
  by_cases hi : i < a.length
  · by_cases hj : j < b.length
    · exact le_maxRun (c := (i, j, runNP P (a.drop i) (b.drop j)))
        (mem_blockCands.2 ⟨hi, hj, rfl⟩)
    · rw [show b.drop j = [] from List.drop_of_length_le (by omega), runNP_nil_right]
      exact Nat.zero_le _
  · rw [show a.drop i = [] from List.drop_of_length_le (by omega), runNP_nil_left]
    exact Nat.zero_le _

theorem maxRun_attained (P a b : List α) :
    maxRun P a b = 0 ∨ ∃ c ∈ blockCands P a b, c.2.2 = maxRun P a b :=
  foldr_max_attained _

theorem find?_split {β : Type} {p : β → Bool} {l : List β} {c : β}
    (h : l.find? p = some c) :
    ∃ l₁ l₂, l = l₁ ++ c :: l₂ ∧ ∀ x ∈ l₁, ¬ p x := by
  induction l with
  | nil => cases h
  | cons d l ih =>
    by_cases hd : p d
    · rw [List.find?_cons_of_pos _ hd] at h
      injection h with h; subst h
      exact ⟨[], l, rfl, by simp⟩
    · rw [List.find?_cons_of_neg _ hd] at h
      obtain ⟨l₁, l₂, rfl, hl₁⟩ := ih h
      refine ⟨d :: l₁, l₂, rfl, ?_⟩
      intro x hx
      rcases List.mem_cons.1 hx with rfl | hx
      · exact hd
      · exact hl₁ x hx

/-- Scan order of the dynamic program: lexicographic on the `(i, j)`
start positions. -/
def lexLt (x y : Nat × Nat × Nat) : Prop :=
  x.1 < y.1 ∨ (x.1 = y.1 ∧ x.2.1 < y.2.1)

theorem blockCands_pairwise (P a b : List α) :
    (blockCands P a b).Pairwise lexLt := by
  unfold blockCands
  rw [List.pairwise_flatMap]
  constructor
  · intro i _
    rw [List.pairwise_map]
    exact (List.pairwise_lt_range _).imp (fun h => Or.inr ⟨rfl, h⟩)
  · have := List.pairwise_lt_range a.length
    refine this.imp ?_
    intro i i' hii'
    intro x hx y hy
    simp only [List.mem_map, List.mem_range] at hx hy
    obtain ⟨j, _, rfl⟩ := hx
    obtain ⟨j', _, rfl⟩ := hy
    exact Or.inl hii'

/-- Characterisation of `bestBlock`: the selected block's run value, its
maximality over all positions, its bounds, and its firstness in scan
order. -/
theorem bestBlock_spec {P a b : List α} {i j k : Nat}
    (h : bestBlock P a b = (i, j, k)) :
    k = runNP P (a.drop i) (b.drop j) ∧
      (∀ i' j', runNP P (a.drop i') (b.drop j') ≤ k) ∧
      i + k ≤ a.length ∧ j + k ≤ b.length ∧
      (∀ i' j', i' < a.length → j' < b.length →
        runNP P (a.drop i') (b.drop j') = k →
        ¬ lexLt (i', j', runNP P (a.drop i') (b.drop j')) (i, j, k)) := by
  unfold bestBlock at h
  rcases hf : (blockCands P a b).find? (fun c => c.2.2 = maxRun P a b) with _ | c
  · -- `find?` fails: the candidate list must be empty, i.e. `a` or `b` is empty
    rw [hf] at h
    simp only at h
    obtain ⟨rfl, rfl, rfl⟩ : 0 = i ∧ 0 = j ∧ 0 = k := by
      refine ⟨congrArg Prod.fst h, ?_, ?_⟩
      · exact congrArg (fun t => t.2.1) h
      · exact congrArg (fun t => t.2.2) h
    have hne : blockCands P a b = [] := by
      by_contra hne
      rcases maxRun_attained P a b with h0 | ⟨c, hc, hck⟩
      · obtain ⟨c, hc⟩ := List.exists_mem_of_ne_nil _ hne
        have h1 : c.2.2 ≤ maxRun P a b := le_maxRun hc
        have := List.find?_eq_none.1 hf c hc
        simp only [decide_eq_true_eq] at this
        exact this (by omega)
      · have := List.find?_eq_none.1 hf c hc
        simp only [decide_eq_true_eq] at this
        exact this hck
    have hab : a.length = 0 ∨ b.length = 0 := by
      by_contra hab
      push_neg at hab
      have : ((0 : Nat), (0 : Nat), runNP P (a.drop 0) (b.drop 0)) ∈ blockCands P a b := by
        refine mem_blockCands.2 ⟨?_, ?_, rfl⟩
        · show 0 < a.length
          omega
        · show 0 < b.length
          omega
      rw [hne] at this
      cases this
    have hall : ∀ i' j', runNP P (a.drop i') (b.drop j') = 0 := by
      intro i' j'
      rcases hab with h | h
      · rw [show a.drop i' = [] from List.drop_of_length_le (by omega), runNP_nil_left]
      · rw [show b.drop j' = [] from List.drop_of_length_le (by omega), runNP_nil_right]
    refine ⟨(hall 0 0).symm, fun i' j' => le_of_eq (hall i' j'), by simp, by simp, ?_⟩
    intro i' j' hi' hj'
    rcases hab with h | h <;> omega
  · rw [hf] at h
    simp only at h
    have hc : c ∈ blockCands P a b := List.mem_of_find?_eq_some hf
    have hck : c.2.2 = maxRun P a b := by
      have := List.find?_some hf
      simpa using this
    subst h
    simp only at hck
    obtain ⟨hci, hcj, hcr⟩ := mem_blockCands.1 hc
    simp only at hci hcj hcr
    refine ⟨hcr, ?_, ?_, ?_, ?_⟩
    · intro i' j'
      rw [hck]
      exact runNP_le_maxRun P a b i' j'
    · have := runNP_le_left P (a.drop i) (b.drop j)
      rw [← hcr] at this
      simp only [List.length_drop] at this
      omega
    · have := runNP_le_right P (a.drop i) (b.drop j)
      rw [← hcr] at this
      simp only [List.length_drop] at this
      omega
    · intro i' j' hi' hj' hrun hlt
      have hmem : (i', j', runNP P (a.drop i') (b.drop j')) ∈ blockCands P a b :=
        mem_blockCands.2 ⟨hi', hj', rfl⟩
      obtain ⟨l₁, l₂, hsplit, hl₁⟩ := find?_split hf
      have hpw := blockCands_pairwise P a b
      rw [hsplit] at hpw hmem
      rcases List.mem_append.1 hmem with h1 | h2
      · have := hl₁ _ h1
        simp only [decide_eq_true_eq] at this
        rw [hck] at hrun
        exact this hrun
      · rcases List.mem_cons.1 h2 with heq | h2
        · have hi : i' = i := by
            have := congrArg Prod.fst heq
            simpa using this
          have hj : j' = j := by
            have := congrArg (fun t => t.2.1) heq
            simpa using this
          rcases hlt with h | h <;> simp only at h <;> omega
        · rw [List.pairwise_append] at hpw
          have := (List.pairwise_cons.1 hpw.2.1).1 _ h2
          rcases this with h | h <;> rcases hlt with h' | h' <;>
            simp only [lexLt] at h h' <;> omega

/-- When there is no non-popular common block at all, `bestBlock` returns
`(alo, blo, 0)`, i.e. `(0, 0, 0)` in slice coordinates. -/
theorem bestBlock_k0 {P a b : List α} {i j k : Nat}
    (h : bestBlock P a b = (i, j, k)) (h0 : k = 0) : i = 0 ∧ j = 0 := by
  subst h0
  unfold bestBlock at h
  rcases hf : (blockCands P a b).find? (fun c => c.2.2 = maxRun P a b) with _ | c
  · rw [hf] at h
    simp only at h
    exact ⟨(congrArg Prod.fst h).symm, (congrArg (fun t => t.2.1) h).symm⟩
  · rw [hf] at h
    simp only at h
    have hc : c ∈ blockCands P a b := List.mem_of_find?_eq_some hf
    have hck : c.2.2 = maxRun P a b := by
      have := List.find?_some hf
      simpa using this
    obtain ⟨hci, hcj, _⟩ := mem_blockCands.1 hc
    -- the head candidate `(0, 0, runNP P a b)` also realizes the (zero) maximum,
    -- so `find?` must have stopped at it
    have hmax0 : maxRun P a b = 0 := by
      rw [← hck, h]
    have hr00 : runNP P (a.drop 0) (b.drop 0) = 0 := by
      have := runNP_le_maxRun P a b 0 0
      omega
    obtain ⟨m, hm⟩ : ∃ m, a.length = m + 1 := ⟨a.length - 1, by omega⟩
    obtain ⟨n, hn⟩ : ∃ n, b.length = n + 1 := ⟨b.length - 1, by omega⟩
    have hhead : ∃ rest, blockCands P a b =
        ((0 : Nat), (0 : Nat), runNP P (a.drop 0) (b.drop 0)) :: rest := by
      unfold blockCands
      rw [hm, hn, List.range_succ_eq_map, List.range_succ_eq_map]
      exact ⟨_, rfl⟩
    obtain ⟨rest, hrest⟩ := hhead
    rw [hrest] at hf
    rw [List.find?_cons_of_pos] at hf
    · have : ((0 : Nat), (0 : Nat), runNP P (a.drop 0) (b.drop 0)) = c := by
        injection hf
      have h1 : c.1 = 0 := by rw [← this]
      have h2 : c.2.1 = 0 := by rw [← this]
      rw [h] at h1 h2
      exact ⟨h1, h2⟩
    · simp only [decide_eq_true_eq]
      omega

theorem findLongestMatch_spec (P a b : List α) :
    (findLongestMatch P a b).1 + (findLongestMatch P a b).2.2 ≤ a.length ∧
      (findLongestMatch P a b).2.1 + (findLongestMatch P a b).2.2 ≤ b.length := by
  obtain ⟨i, j, k, ht⟩ : ∃ i j k, bestBlock P a b = (i, j, k) :=
    ⟨_, _, _, rfl⟩
  obtain ⟨hrun, hmax, hia, hjb, _⟩ := bestBlock_spec ht
  unfold findLongestMatch
  rw [ht]
  simp only
  set e := commonRun ((a.take i).reverse) ((b.take j).reverse) with he
  set f := commonRun (a.drop (i + k)) (b.drop (j + k)) with hf
  have hei : e ≤ i := by
    have := commonRun_le_left ((a.take i).reverse) ((b.take j).reverse)
    simp only [List.length_reverse, List.length_take] at this
    omega
  have hej : e ≤ j := by
    have := commonRun_le_right ((a.take i).reverse) ((b.take j).reverse)
    simp only [List.length_reverse, List.length_take] at this
    omega
  have hfa : f ≤ a.length - (i + k) := by
    have := commonRun_le_left (a.drop (i + k)) (b.drop (j + k))
    simpa using this
  have hfb : f ≤ b.length - (j + k) := by
    have := commonRun_le_right (a.drop (i + k)) (b.drop (j + k))
    simpa using this
  exact ⟨by omega, by omega⟩

/-- Fuelled version of the recursive block collection of
`get_matching_blocks`; any fuel of at least `a.length + b.length`
computes the fixed point. -/
def mbFuel (P : List α) : Nat → List α → List α → Nat → Nat → List (Nat × Nat × Nat)
  | 0, _, _, _, _ => []
  | fuel + 1, a, b, aoff, boff =>
    let t := findLongestMatch P a b
    if t.2.2 = 0 then []
    else
      mbFuel P fuel (a.take t.1) (b.take t.2.1) aoff boff ++
        (aoff + t.1, boff + t.2.1, t.2.2) ::
          mbFuel P fuel (a.drop (t.1 + t.2.2)) (b.drop (t.2.1 + t.2.2))
            (aoff + t.1 + t.2.2) (boff + t.2.1 + t.2.2)

/-- Model of `SequenceMatcher.get_matching_blocks`'s recursive collection
of blocks (the queue loop plus the final sort): find the longest match in
the current range, recurse on what precedes and what follows it.
Offsets `aoff`, `boff` translate slice-local indices back to absolute
positions; `P` is the global popular set of the full `b`. -/
def matchingBlocksAux (P a b : List α) (aoff boff : Nat) : List (Nat × Nat × Nat) :=
  mbFuel P (a.length + b.length) a b aoff boff

theorem findLongestMatch_nil_nil (P : List α) :
    findLongestMatch P ([] : List α) ([] : List α) = (0, 0, 0) := rfl

theorem mbFuel_eq_of_le (P : List α) :
    ∀ fuel₁ fuel₂ a b aoff boff, a.length + b.length ≤ fuel₁ →
      a.length + b.length ≤ fuel₂ →
      mbFuel P fuel₁ a b aoff boff = mbFuel P fuel₂ a b aoff boff := by
  intro fuel₁
  induction fuel₁ with
  | zero =>
    intro fuel₂ a b aoff boff h₁ h₂
    have ha : a = [] := List.length_eq_zero.1 (by omega)
    have hb : b = [] := List.length_eq_zero.1 (by omega)
    subst ha; subst hb
    cases fuel₂ with
    | zero => rfl
    | succ g =>
      show ([] : List (Nat × Nat × Nat)) = _
      simp [mbFuel, findLongestMatch_nil_nil]
  | succ f ih =>
    intro fuel₂ a b aoff boff h₁ h₂
    cases fuel₂ with
    | zero =>
      have ha : a = [] := List.length_eq_zero.1 (by omega)
      have hb : b = [] := List.length_eq_zero.1 (by omega)
      subst ha; subst hb
      show _ = ([] : List (Nat × Nat × Nat))
      simp [mbFuel, findLongestMatch_nil_nil]
    | succ g =>
      simp only [mbFuel]
      obtain ⟨i, j, k, ht⟩ : ∃ i j k, findLongestMatch P a b = (i, j, k) := ⟨_, _, _, rfl⟩
      rw [ht]
      simp only
      by_cases hk : k = 0
      · rw [if_pos hk, if_pos hk]
      · rw [if_neg hk, if_neg hk]
        have hspec := findLongestMatch_spec P a b
        rw [ht] at hspec
        simp only at hspec
        have hl1 : (a.take i).length + (b.take j).length ≤ f := by
          simp only [List.length_take]
          omega
        have hl2 : (a.drop (i + k)).length + (b.drop (j + k)).length ≤ f := by
          simp only [List.length_drop]
          omega
        have hg1 : (a.take i).length + (b.take j).length ≤ g := by
          simp only [List.length_take]
          omega
        have hg2 : (a.drop (i + k)).length + (b.drop (j + k)).length ≤ g := by
          simp only [List.length_drop]
          omega
        rw [ih g _ _ aoff boff hl1 hg1, ih g _ _ _ _ hl2 hg2]

/-- The defining recursion of `matchingBlocksAux`, independent of fuel. -/
theorem matchingBlocksAux_eq (P a b : List α) (aoff boff : Nat) :
    matchingBlocksAux P a b aoff boff =
      (match findLongestMatch P a b with
        | (i, j, k) =>
          if k = 0 then []
          else
            matchingBlocksAux P (a.take i) (b.take j) aoff boff ++
              (aoff + i, boff + j, k) ::
                matchingBlocksAux P (a.drop (i + k)) (b.drop (j + k))
                  (aoff + i + k) (boff + j + k)) := by
  obtain ⟨i, j, k, ht⟩ : ∃ i j k, findLongestMatch P a b = (i, j, k) := ⟨_, _, _, rfl⟩
  rw [ht]
  simp only
  have hspec := findLongestMatch_spec P a b
  rw [ht] at hspec
  simp only at hspec
  unfold matchingBlocksAux
  rcases Nat.eq_zero_or_pos (a.length + b.length) with h0 | hpos
  · have ha : a = [] := List.length_eq_zero.1 (by omega)
    have hb : b = [] := List.length_eq_zero.1 (by omega)
    subst ha; subst hb
    have hk : k = 0 := by
      have h1 := (findLongestMatch_nil_nil P).symm.trans ht
      have := congrArg (fun t => t.2.2) h1
      simp only at this
      omega
    rw [if_pos hk]
    rfl
  · obtain ⟨n, hn⟩ : ∃ n, a.length + b.length = n + 1 := ⟨a.length + b.length - 1, by omega⟩
    rw [hn]
    simp only [mbFuel]
    rw [ht]
    simp only
    by_cases hk : k = 0
    · rw [if_pos hk, if_pos hk]
    · rw [if_neg hk, if_neg hk]
      have hg1 : (a.take i).length + (b.take j).length ≤ n := by
        simp only [List.length_take]
        omega
      have hg2 : (a.drop (i + k)).length + (b.drop (j + k)).length ≤ n := by
        simp only [List.length_drop]
        omega
      rw [mbFuel_eq_of_le P n _ _ _ aoff boff hg1 (le_refl _),
        mbFuel_eq_of_le P n _ _ _ _ _ hg2 (le_refl _)]

/-- Model of the adjacent-block merging loop in `get_matching_blocks`. -/
def mergeAcc : Nat × Nat × Nat → List (Nat × Nat × Nat) → List (Nat × Nat × Nat)
  | acc, [] => if acc.2.2 ≠ 0 then [acc] else []
  | (i1, j1, k1), (i2, j2, k2) :: rest =>
    if i1 + k1 = i2 ∧ j1 + k1 = j2 then mergeAcc (i1, j1, k1 + k2) rest
    else (if k1 ≠ 0 then [(i1, j1, k1)] else []) ++ mergeAcc (i2, j2, k2) rest

/-- Model of `SequenceMatcher.get_matching_blocks` on full sequences:
recursively collected blocks, adjacent ones merged, then the sentinel
`(len(a), len(b), 0)`.  The popular set is computed from the full `b`
(`autojunk`). -/
def matchingBlocks (a b : List α) : List (Nat × Nat × Nat) :=
  mergeAcc (0, 0, 0) (matchingBlocksAux (popularList b) a b 0 0) ++ [(a.length, b.length, 0)]

/-- Tags of `SequenceMatcher.get_opcodes` opcodes. -/
inductive DiffTag : Type
  | eq : DiffTag
  | repl : DiffTag
  | del : DiffTag
  | ins : DiffTag
deriving DecidableEq, Repr

/-- An opcode `(tag, i1, i2, j1, j2)` as produced by `get_opcodes`. -/
structure Opcode : Type where
  tag : DiffTag
  i1 : Nat
  i2 : Nat
  j1 : Nat
  j2 : Nat
deriving DecidableEq, Repr

/-- Model of the loop of `SequenceMatcher.get_opcodes`: walk the matching
blocks keeping the current positions `i`, `j`; emit a
replace/delete/insert opcode for the gap before each block and an equal
opcode for the block itself when non-empty. -/
def opcodesAux : Nat → Nat → List (Nat × Nat × Nat) → List Opcode
  | _, _, [] => []
  | i, j, (ai, bj, k) :: rest =>
    (if i < ai ∧ j < bj then [⟨DiffTag.repl, i, ai, j, bj⟩]
     else if i < ai then [⟨DiffTag.del, i, ai, j, bj⟩]
     else if j < bj then [⟨DiffTag.ins, i, ai, j, bj⟩]
     else []) ++
    (if k ≠ 0 then [⟨DiffTag.eq, ai, ai + k, bj, bj + k⟩] else []) ++
    opcodesAux (ai + k) (bj + k) rest

/-- Model of `SequenceMatcher(None, a, b).get_opcodes()`. -/
def getOpcodes (a b : List α) : List Opcode :=
  opcodesAux 0 0 (matchingBlocks a b)

/-- The slice `l[x:y]` of a Python list. -/
def sliceOf (l : List α) (x y : Nat) : List α :=
  (l.drop x).take (y - x)

/-- Result of `get_diff_words`: missing, extra words and replaced pairs. -/
structure DiffResult (α : Type) : Type where
  missing : List α
  extra : List α
  replaced : List (α × α)
deriving DecidableEq, Repr

/-- The opcode loop of `get_diff_words` over two word sequences. -/
def diffOf (aw bw : List α) : DiffResult α :=
  let ops := getOpcodes aw bw
  { missing := ops.foldr
      (fun op acc => (if op.tag = DiffTag.del then sliceOf aw op.i1 op.i2 else []) ++ acc) []
    extra := ops.foldr
      (fun op acc => (if op.tag = DiffTag.ins then sliceOf bw op.j1 op.j2 else []) ++ acc) []
    replaced := ops.foldr
      (fun op acc =>
        (if op.tag = DiffTag.repl then
          (sliceOf aw op.i1 op.i2).zip (sliceOf bw op.j1 op.j2) else []) ++ acc) [] }

/-- Model of `get_diff_words(orig, rec)` from `app.py`: split both strings
on whitespace and classify the words via the opcodes. -/
def getDiffWords (orig rec : List Char) : DiffResult (List Char) :=
  diffOf (splitWs orig) (splitWs rec)

/-- Total number of matched elements: the sum of the sizes of the matching
blocks (`sum(triple[-1] for triple in self.get_matching_blocks())`). -/
def seqMatches (a b : List α) : Nat :=
  ((matchingBlocks a b).map (fun t => t.2.2)).sum

/-- Model of `SequenceMatcher.ratio()` over exact rationals:
`2.0 * matches / length` with the convention that two empty sequences have
ratio `1.0`. -/
def seqRatio (a b : List α) : ℚ :=
  if a.length + b.length = 0 then 1
  else 2 * (seqMatches a b : ℚ) / ((a.length : ℚ) + (b.length : ℚ))

/-- Banker's rounding (round half to even) of a rational to an integer,
the rounding Python's `round` uses. -/
def roundHalfEven (q : ℚ) : ℤ :=
  if q - ⌊q⌋ < 1 / 2 then ⌊q⌋
  else if 1 / 2 < q - ⌊q⌋ then ⌊q⌋ + 1
  else if ⌊q⌋ % 2 = 0 then ⌊q⌋ else ⌊q⌋ + 1

/-- Python's `round(x, 2)` over exact rationals. -/
def pyRound2 (q : ℚ) : ℚ :=
  (roundHalfEven (q * 100) : ℚ) / 100

/-- The similarity percentage computed in `main`:
`round(SequenceMatcher(None, a, b).ratio() * 100, 2)`. -/
def similarityPercent (a b : List Char) : ℚ :=
  pyRound2 (seqRatio a b * 100)

/-- The nine characters removed by the first substitution of
`normalize_arabic` (`re.sub(r"[ًٌٍَُِّْـ]", "", text)`): fathatan, dammatan,
kasratan, fatha, damma, kasra, shadda, sukun and tatweel. -/
def tashkeelChars : List Char :=
  [Char.ofNat 0x64B, Char.ofNat 0x64C, Char.ofNat 0x64D, Char.ofNat 0x64E,
   Char.ofNat 0x64F, Char.ofNat 0x650, Char.ofNat 0x651, Char.ofNat 0x652,
   Char.ofNat 0x640]

/-- The alef variants unified by `re.sub(r"[إأآا]", "ا", text)`:
alef-hamza-below, alef-hamza-above, alef-madda and bare alef. -/
def alefVariants : List Char :=
  [Char.ofNat 0x625, Char.ofNat 0x623, Char.ofNat 0x622, Char.ofNat 0x627]

/-- Model of Python's regex `\w` restricted to ASCII word characters.
Python's Unicode `\w` additionally covers non-ASCII alphanumerics, but the
characters relevant to this code base (the Arabic block) are kept by the
explicit `؀-ۿ` range of the punctuation substitution anyway, and
none of the theorems below depends on the extension of this class. -/
def isWordChar (c : Char) : Bool :=
  (0x41 ≤ c.val && c.val ≤ 0x5A) || (0x61 ≤ c.val && c.val ≤ 0x7A) ||
  (0x30 ≤ c.val && c.val ≤ 0x39) || c.val = 0x5F

/-- The `؀-ۿ` range of the punctuation substitution. -/
def isArabicBlock (c : Char) : Bool :=
  0x600 ≤ c.val && c.val ≤ 0x6FF

/-- A character kept (not replaced by a space) by
`re.sub(r"[^\w\s؀-ۿ]", " ", text)`. -/
def keptChar (c : Char) : Bool :=
  isWordChar c || pyIsSpace c || isArabicBlock c

/-- Model of `re.sub(r"\s+", " ", text)`: replace every maximal whitespace
run by a single ASCII space.  The flag records whether we are inside a
run. -/
def collapseWsAux : List Char → Bool → List Char
  | [], _ => []
  | c :: cs, inRun =>
    if pyIsSpace c then
      (if inRun then [] else [' ']) ++ collapseWsAux cs true
    else c :: collapseWsAux cs false

/-- Collapse whitespace runs to single spaces. -/
def collapseWs (s : List Char) : List Char :=
  collapseWsAux s false

/-- Model of the right half of `str.strip()`: drop trailing whitespace. -/
def rstripWs : List Char → List Char
  | [] => []
  | c :: cs =>
    if rstripWs cs = [] ∧ pyIsSpace c then [] else c :: rstripWs cs

/-- Model of `str.strip()`: drop leading and trailing whitespace. -/
def stripWs (s : List Char) : List Char :=
  rstripWs (s.dropWhile pyIsSpace)

/-- Step 1 of `normalize_arabic`: `re.sub(r"[ًٌٍَُِّْـ]", "", text)`. -/
def normTashkeel (s : List Char) : List Char :=
  s.filter (fun c => !(decide (c ∈ tashkeelChars)))

/-- Step 2: `re.sub(r"[إأآا]", "ا", text)`. -/
def normAlef (s : List Char) : List Char :=
  s.map (fun c => if c ∈ alefVariants then Char.ofNat 0x627 else c)

/-- Step 3: `re.sub(r"ى", "ي", text)`. -/
def normMaksura (s : List Char) : List Char :=
  s.map (fun c => if c = Char.ofNat 0x649 then Char.ofNat 0x64A else c)

/-- Step 4: `re.sub(r"ؤ", "و", text)`. -/
def normWawHamza (s : List Char) : List Char :=
  s.map (fun c => if c = Char.ofNat 0x624 then Char.ofNat 0x648 else c)

/-- Step 5: `re.sub(r"ئ", "ي", text)`. -/
def normYaHamza (s : List Char) : List Char :=
  s.map (fun c => if c = Char.ofNat 0x626 then Char.ofNat 0x64A else c)

/-- Step 6 (optional): `re.sub(r"ة", "ه", text)`. -/
def normTa (ta : Bool) (s : List Char) : List Char :=
  if ta then s.map (fun c => if c = Char.ofNat 0x629 then Char.ofNat 0x647 else c)
  else s

/-- Step 7: `re.sub(r"[^\w\s؀-ۿ]", " ", text)`. -/
def normPunct (s : List Char) : List Char :=
  s.map (fun c => if keptChar c then c else ' ')

/-- Model of `normalize_arabic(text, normalize_ta)` from `app.py`: remove
tashkeel and tatweel; unify the alef variants to bare alef; map
alef-maksura and ya-hamza to dotted ya and waw-hamza to waw; optionally
map ta-marbuta to heh; replace remaining non-word, non-space,
non-Arabic-block characters by spaces; collapse whitespace and strip. -/
def normalizeArabic (s : List Char) (normalizeTa : Bool) : List Char :=
  stripWs (collapseWs (normPunct (normTa normalizeTa
    (normYaHamza (normWawHamza (normMaksura (normAlef (normTashkeel s))))))))

/-- The single-quote character, used inside the highlight markers. -/
def sqChar : Char := Char.ofNat 39

/-- The opening highlight marker `<span style='color:var(--accent-pink)'>`
of `highlight_differences`. -/
def accentOpen : List Char :=
  ("<span style=").data ++ sqChar :: ("color:var(--accent-pink)").data ++
    [sqChar, '>']

/-- The closing highlight marker `</span>`. -/
def accentClose : List Char := ("</span>").data

/-- A word wrapped in the highlight markers
(`f"<span style='color:var(--accent-pink)'>{w}</span>"`). -/
def wrapAccent (w : List Char) : List Char :=
  accentOpen ++ w ++ accentClose

/-- The `orig_html_parts` list built by `highlight_differences`: equal
words plain, replace/delete words wrapped, insert contributing nothing. -/
def origParts (ow rw : List (List Char)) : List (List Char) :=
  (getOpcodes ow rw).foldr
    (fun op acc =>
      (match op.tag with
        | DiffTag.eq => sliceOf ow op.i1 op.i2
        | DiffTag.repl => (sliceOf ow op.i1 op.i2).map wrapAccent
        | DiffTag.del => (sliceOf ow op.i1 op.i2).map wrapAccent
        | DiffTag.ins => []) ++ acc) []

/-- The `rec_html_parts` list built by `highlight_differences`. -/
def recParts (ow rw : List (List Char)) : List (List Char) :=
  (getOpcodes ow rw).foldr
    (fun op acc =>
      (match op.tag with
        | DiffTag.eq => sliceOf rw op.j1 op.j2
        | DiffTag.repl => (sliceOf rw op.j1 op.j2).map wrapAccent
        | DiffTag.ins => (sliceOf rw op.j1 op.j2).map wrapAccent
        | DiffTag.del => []) ++ acc) []

/-- Model of `highlight_differences(orig, rec)` from `app.py`: the two
space-joined part lists, falling back to the unmarked joined words when a
result is empty. -/
def highlightDifferences (orig rec : List Char) : List Char × List Char :=
  let ow := splitWs orig
  let rw := splitWs rec
  let h1 := joinWs (origParts ow rw)
  let h2 := joinWs (recParts ow rw)
  (if h1 = [] then joinWs ow else h1, if h2 = [] then joinWs rw else h2)

/-- Greedy left-to-right removal of every occurrence of `pat` (Python's
`str.replace(pat, "")`): after a match, scanning resumes beyond it; the
`skip` counter implements the jump structurally. -/
def removeSubAux (pat : List Char) : List Char → Nat → List Char
  | [], _ => []
  | _ :: cs, skip + 1 => removeSubAux pat cs skip
  | c :: cs, 0 =>
    if pat.isPrefixOf (c :: cs) ∧ pat ≠ [] then removeSubAux pat cs (pat.length - 1)
    else c :: removeSubAux pat cs 0

/-- Remove every occurrence of `pat` from `s`, scanning left to right. -/
def removeSub (pat s : List Char) : List Char :=
  removeSubAux pat s 0

theorem runNP_cons (P : List α) (a b : α) (xs ys : List α) :
    runNP P (a :: xs) (b :: ys) =
      if a = b ∧ a ∉ P then runNP P xs ys + 1 else 0 := rfl

theorem commonRun_cons (a b : α) (xs ys : List α) :
    commonRun (a :: xs) (b :: ys) =
      if a = b then commonRun xs ys + 1 else 0 := rfl

theorem runNP_le_self_left (P : List α) (x y : List α) :
    runNP P x y ≤ runNP P x x := by
  induction x generalizing y with
  | nil => simp [runNP_nil_left]
  | cons a xs ih =>
    cases y with
    | nil => simp [runNP_nil_right]
    | cons b ys =>
      rw [runNP_cons, runNP_cons]
      by_cases h : a = b ∧ a ∉ P
      · rw [if_pos h, if_pos ⟨rfl, h.2⟩]
        exact Nat.succ_le_succ (ih ys)
      · rw [if_neg h]
        exact Nat.zero_le _

theorem runNP_le_self_right (P : List α) (x y : List α) :
    runNP P x y ≤ runNP P y y := by
  induction x generalizing y with
  | nil => simp [runNP_nil_left]
  | cons a xs ih =>
    cases y with
    | nil => simp [runNP_nil_right]
    | cons b ys =>
      rw [runNP_cons, runNP_cons]
      by_cases h : a = b ∧ a ∉ P
      · obtain ⟨rfl, hP⟩ := h
        rw [if_pos ⟨rfl, hP⟩, if_pos ⟨rfl, hP⟩]
        exact Nat.succ_le_succ (ih ys)
      · rw [if_neg h]
        exact Nat.zero_le _

theorem commonRun_self (l : List α) : commonRun l l = l.length := by
  induction l with
  | nil => rfl
  | cons a l ih => simp [commonRun, ih]

/-- On two identical sequences the selected block is diagonal. -/
theorem bestBlock_self_diag {P s : List α} {i j k : Nat}
    (h : bestBlock P s s = (i, j, k)) : i = j := by
  obtain ⟨hrun, hmax, hik, hjk, hfirst⟩ := bestBlock_spec h
  by_cases hk : k = 0
  · obtain ⟨hi, hj⟩ := bestBlock_k0 h hk
    omega
  · by_contra hij
    have hd1 : runNP P (s.drop (min i j)) (s.drop (min i j)) = k := by
      rcases Nat.le_total i j with hle | hle
      · rw [Nat.min_eq_left hle]
        have h1 : k ≤ runNP P (s.drop i) (s.drop i) := by
          rw [hrun]
          exact runNP_le_self_left P _ _
        have h2 := hmax i i
        omega
      · rw [Nat.min_eq_right hle]
        have h1 : k ≤ runNP P (s.drop j) (s.drop j) := by
          rw [hrun]
          exact runNP_le_self_right P _ _
        have h2 := hmax j j
        omega
    have hlt : lexLt (min i j, min i j,
        runNP P (s.drop (min i j)) (s.drop (min i j))) (i, j, k) := by
      rcases Nat.lt_or_ge i j with hlt | hge
      · right
        constructor
        · simp only
          omega
        · simp only
          omega
      · left
        simp only
        omega
    exact hfirst (min i j) (min i j) (by omega) (by omega) hd1 hlt

/-- On two identical sequences `find_longest_match` returns the full
diagonal. -/
theorem findLongestMatch_self (P : List α) (s : List α) :
    findLongestMatch P s s = (0, 0, s.length) := by
  obtain ⟨i, j, k, ht⟩ : ∃ i j k, bestBlock P s s = (i, j, k) := ⟨_, _, _, rfl⟩
  have hij : i = j := bestBlock_self_diag ht
  subst hij
  obtain ⟨hrun, hmax, hik, _, _⟩ := bestBlock_spec ht
  unfold findLongestMatch
  rw [ht]
  simp only
  rw [commonRun_self, commonRun_self]
  simp only [List.length_reverse, List.length_take, List.length_drop]
  have h1 : min i s.length = i := by omega
  rw [h1]
  simp only [Nat.sub_self]
  refine congrArg (fun n => ((0 : Nat), (0 : Nat), n)) ?_
  omega

theorem matchingBlocksAux_nil_nil (P : List α) (aoff boff : Nat) :
    matchingBlocksAux P ([] : List α) ([] : List α) aoff boff = [] := rfl

/-- On two identical sequences the recursive block collection returns the
single full block (or nothing when empty). -/
theorem matchingBlocksAux_self (P s : List α) (aoff boff : Nat) :
    matchingBlocksAux P s s aoff boff =
      if s.length = 0 then [] else [(aoff, boff, s.length)] := by
  rw [matchingBlocksAux_eq, findLongestMatch_self]
  simp only
  by_cases h0 : s.length = 0
  · rw [if_pos h0, if_pos h0]
  · rw [if_neg h0, if_neg h0]
    rw [List.take_zero, matchingBlocksAux_nil_nil,
      show s.drop (0 + s.length) = [] from by simp, matchingBlocksAux_nil_nil]
    simp

theorem matchingBlocks_self (s : List α) :
    matchingBlocks s s =
      if s.length = 0 then [(0, 0, 0)]
      else [(0, 0, s.length), (s.length, s.length, 0)] := by
  unfold matchingBlocks
  rw [matchingBlocksAux_self]
  by_cases h0 : s.length = 0
  · rw [if_pos h0, if_pos h0, h0]
    rfl
  · rw [if_neg h0, if_neg h0]
    show mergeAcc (0, 0, 0) [(0, 0, s.length)] ++ _ = _
    rw [show mergeAcc (0, 0, 0) [(0, 0, s.length)] = [(0, 0, s.length)] from by
      simp [mergeAcc, h0]]
    rfl

theorem seqMatches_self (s : List α) : seqMatches s s = s.length := by
  unfold seqMatches
  rw [matchingBlocks_self]
  by_cases h0 : s.length = 0
  · rw [if_pos h0, h0]
    rfl
  · rw [if_neg h0]
    simp

theorem pyRound2_hundred : pyRound2 100 = 100 := by
  simp only [pyRound2, roundHalfEven]
  norm_num

theorem similarityPercent_self (s : List Char) : similarityPercent s s = 100 := by
  unfold similarityPercent seqRatio
  rw [seqMatches_self]
  by_cases h0 : s.length = 0
  · rw [if_pos (by omega)]
    simpa using pyRound2_hundred
  · rw [if_neg (by omega)]
    have hq : (2 : ℚ) * (s.length : ℚ) / ((s.length : ℚ) + (s.length : ℚ)) = 1 := by
      have : (s.length : ℚ) ≠ 0 := by
        exact_mod_cast h0
      field_simp
      ring
    rw [hq]
    simpa using pyRound2_hundred

/-- On identical word sequences the opcode list is a single equal span (or
empty), whence an empty diff. -/
theorem diffOf_self (w : List α) : diffOf w w = ⟨[], [], []⟩ := by
  unfold diffOf getOpcodes
  rw [matchingBlocks_self]
  by_cases h0 : w.length = 0
  · rw [if_pos h0]
    rfl
  · rw [if_neg h0]
    have hops : opcodesAux 0 0 [((0 : Nat), (0 : Nat), w.length),
        (w.length, w.length, (0 : Nat))] =
        [⟨DiffTag.eq, 0, 0 + w.length, 0, 0 + w.length⟩] := by
      simp [opcodesAux, h0]
    rw [hops]
    simp

/-- Ordered, in-bounds block lists: each block starts at or after the
current position and the positions advance monotonically towards the end
position `q`. -/
inductive ChainSeg : Nat × Nat → List (Nat × Nat × Nat) → Nat × Nat → Prop
  | nil {p q : Nat × Nat} : p.1 ≤ q.1 → p.2 ≤ q.2 → ChainSeg p [] q
  | cons {i j a b k : Nat} {rest : List (Nat × Nat × Nat)} {q : Nat × Nat} :
      i ≤ a → j ≤ b → ChainSeg (a + k, b + k) rest q →
      ChainSeg (i, j) ((a, b, k) :: rest) q

theorem ChainSeg.le_end {p : Nat × Nat} {bs : List (Nat × Nat × Nat)}
    {q : Nat × Nat} (h : ChainSeg p bs q) : p.1 ≤ q.1 ∧ p.2 ≤ q.2 := by
  induction h with
  | nil h1 h2 => exact ⟨h1, h2⟩
  | cons h1 h2 _ ih =>
    simp only at *
    omega

theorem ChainSeg.mono {p p' : Nat × Nat} {bs : List (Nat × Nat × Nat)}
    {q : Nat × Nat} (h : ChainSeg p bs q) (h1 : p'.1 ≤ p.1) (h2 : p'.2 ≤ p.2) :
    ChainSeg p' bs q := by
  cases h with
  | nil g1 g2 =>
    obtain ⟨p1, p2⟩ := p'
    exact ChainSeg.nil (by simp only at *; omega) (by simp only at *; omega)
  | cons g1 g2 grest =>
    obtain ⟨p1, p2⟩ := p'
    exact ChainSeg.cons (by simp only at *; omega) (by simp only at *; omega) grest

theorem ChainSeg.append {p q r : Nat × Nat} {xs ys : List (Nat × Nat × Nat)}
    (hx : ChainSeg p xs q) (hy : ChainSeg q ys r) : ChainSeg p (xs ++ ys) r := by
  induction hx with
  | nil h1 h2 => exact (hy.mono h1 h2)
  | cons h1 h2 _ ih => exact ChainSeg.cons h1 h2 (ih hy)

theorem matchingBlocksAux_chain (P : List α) :
    ∀ n a b aoff boff, a.length + b.length ≤ n →
      ChainSeg (aoff, boff) (matchingBlocksAux P a b aoff boff)
        (aoff + a.length, boff + b.length) := by
  intro n
  induction n with
  | zero =>
    intro a b aoff boff h
    have ha : a = [] := List.length_eq_zero.1 (by omega)
    have hb : b = [] := List.length_eq_zero.1 (by omega)
    subst ha; subst hb
    rw [matchingBlocksAux_nil_nil]
    exact ChainSeg.nil (by simp) (by simp)
  | succ n ih =>
    intro a b aoff boff h
    rw [matchingBlocksAux_eq]
    obtain ⟨i, j, k, ht⟩ : ∃ i j k, findLongestMatch P a b = (i, j, k) := ⟨_, _, _, rfl⟩
    rw [ht]
    simp only
    by_cases hk : k = 0
    · rw [if_pos hk]
      exact ChainSeg.nil (by simp) (by simp)
    · rw [if_neg hk]
      have hspec := findLongestMatch_spec P a b
      rw [ht] at hspec
      simp only at hspec
      have hchl := ih (a.take i) (b.take j) aoff boff
        (by simp only [List.length_take]; omega)
      have hchr := ih (a.drop (i + k)) (b.drop (j + k)) (aoff + i + k) (boff + j + k)
        (by simp only [List.length_drop]; omega)
      simp only [List.length_take, List.length_drop] at hchl hchr
      have hmi : min i a.length = i := by omega
      have hmj : min j b.length = j := by omega
      rw [hmi, hmj] at hchl
      refine hchl.append ?_
      refine ChainSeg.cons (le_refl _) (le_refl _) ?_
      have h1 : aoff + i + k + (a.length - (i + k)) = aoff + a.length := by omega
      have h2 : boff + j + k + (b.length - (j + k)) = boff + b.length := by omega
      rw [h1, h2] at hchr
      exact hchr

theorem mergeAcc_chain :
    ∀ (bs : List (Nat × Nat × Nat)) (i1 j1 k1 : Nat) (q : Nat × Nat),
      ChainSeg (i1 + k1, j1 + k1) bs q →
      ChainSeg (i1, j1) (mergeAcc (i1, j1, k1) bs) q := by
  intro bs
  induction bs with
  | nil =>
    intro i1 j1 k1 q h
    have hb := h.le_end
    simp only at hb
    show ChainSeg (i1, j1) (if k1 ≠ 0 then [(i1, j1, k1)] else []) q
    by_cases hk : k1 = 0
    · rw [if_neg (by omega)]
      exact ChainSeg.nil (by simp only; omega) (by simp only; omega)
    · rw [if_pos (by omega)]
      exact ChainSeg.cons (le_refl _) (le_refl _) (ChainSeg.nil (by simp only; omega) (by simp only; omega))
  | cons hd rest ih =>
    intro i1 j1 k1 q h
    obtain ⟨i2, j2, k2⟩ := hd
    cases h with
    | cons h1 h2 hrest =>
      unfold mergeAcc
      by_cases hadj : i1 + k1 = i2 ∧ j1 + k1 = j2
      · rw [if_pos hadj]
        refine ih i1 j1 (k1 + k2) q ?_
        have e1 : i1 + (k1 + k2) = i2 + k2 := by omega
        have e2 : j1 + (k1 + k2) = j2 + k2 := by omega
        rw [e1, e2]
        exact hrest
      · rw [if_neg hadj]
        have hmerged : ChainSeg (i2, j2) (mergeAcc (i2, j2, k2) rest) q :=
          ih i2 j2 k2 q hrest
        by_cases hk : k1 = 0
        · rw [if_neg (by omega)]
          simp only [List.nil_append]
          exact hmerged.mono (by simp only; omega) (by simp only; omega)
        · rw [if_pos (by omega)]
          simp only [List.cons_append, List.nil_append]
          exact ChainSeg.cons (le_refl _) (le_refl _)
            (hmerged.mono (by simp only; omega) (by simp only; omega))

/-- Valid walks for `get_opcodes`: blocks in order, within bounds, ending
with the sentinel `(la, lb, 0)`. -/
inductive WalkOK (la lb : Nat) : Nat → Nat → List (Nat × Nat × Nat) → Prop
  | last {i j : Nat} : i ≤ la → j ≤ lb → WalkOK la lb i j [(la, lb, 0)]
  | cons {i j a b k : Nat} {rest : List (Nat × Nat × Nat)} :
      i ≤ a → j ≤ b → a + k ≤ la → b + k ≤ lb →
      WalkOK la lb (a + k) (b + k) rest → WalkOK la lb i j ((a, b, k) :: rest)

theorem ChainSeg.toWalkOK {la lb : Nat} :
    ∀ {i j : Nat} {bs : List (Nat × Nat × Nat)},
      ChainSeg (i, j) bs (la, lb) → WalkOK la lb i j (bs ++ [(la, lb, 0)]) := by
  intro i j bs h
  induction bs generalizing i j with
  | nil =>
    have hb := h.le_end
    simp only at hb
    exact WalkOK.last hb.1 hb.2
  | cons hd rest ih =>
    obtain ⟨a, b, k⟩ := hd
    cases h with
    | cons h1 h2 hrest =>
      have hend := hrest.le_end
      simp only at hend
      exact WalkOK.cons h1 h2 (by omega) (by omega) (ih hrest)

/-- The matching-block list of two full sequences is a valid
sentinel-terminated walk from `(0, 0)`. -/
theorem matchingBlocks_walkOK (a b : List α) :
    WalkOK a.length b.length 0 0 (matchingBlocks a b) := by
  unfold matchingBlocks
  refine ChainSeg.toWalkOK ?_
  have hch := matchingBlocksAux_chain (popularList b) (a.length + b.length)
    a b 0 0 (le_refl _)
  have h00 : ((0 : Nat) + (0 : Nat), (0 : Nat) + (0 : Nat)) = ((0 : Nat), (0 : Nat)) := by
    simp
  refine mergeAcc_chain _ 0 0 0 _ ?_
  rw [h00]
  simpa using hch

theorem sliceOf_nil_of_ge (w : List α) {x y : Nat} (h : y ≤ x) :
    sliceOf w x y = [] := by
  unfold sliceOf
  rw [show y - x = 0 from by omega]
  rfl

theorem sliceOf_append (w : List α) {x y z : Nat} (hxy : x ≤ y) (hyz : y ≤ z) :
    sliceOf w x y ++ sliceOf w y z = sliceOf w x z := by
  unfold sliceOf
  have h1 : z - x = (y - x) + (z - y) := by omega
  rw [h1, List.take_add]
  congr 2
  rw [List.drop_drop]
  congr 1
  omega

theorem sliceOf_length (w : List α) {x y : Nat} (hy : y ≤ w.length) :
    (sliceOf w x y).length = y - x := by
  unfold sliceOf
  simp only [List.length_take, List.length_drop]
  omega

theorem foldr_concat_append {γ : Type} (g : Opcode → List γ) (xs ys : List Opcode) :
    (xs ++ ys).foldr (fun op acc => g op ++ acc) [] =
      xs.foldr (fun op acc => g op ++ acc) [] ++
        ys.foldr (fun op acc => g op ++ acc) [] := by
  induction xs with
  | nil => simp
  | cons x xs ih => simp [ih]

/-- Reference-side contribution of an opcode to the (amended)
reconstruction: the full reference span for equal, delete and replace
opcodes. -/
def refContrib (aw : List α) (op : Opcode) : List α :=
  match op.tag with
  | DiffTag.eq => sliceOf aw op.i1 op.i2
  | DiffTag.del => sliceOf aw op.i1 op.i2
  | DiffTag.repl => sliceOf aw op.i1 op.i2
  | DiffTag.ins => []

/-- Candidate-side contribution: the full candidate span for equal,
insert and replace opcodes. -/
def candContrib (bw : List α) (op : Opcode) : List α :=
  match op.tag with
  | DiffTag.eq => sliceOf bw op.j1 op.j2
  | DiffTag.ins => sliceOf bw op.j1 op.j2
  | DiffTag.repl => sliceOf bw op.j1 op.j2
  | DiffTag.del => []

/-- The reconstruction of the reference side described by the spec's
completeness invariant, with the full reference span of each Replace
opcode (the amended form of C1). -/
def refReconFull (aw bw : List α) : List α :=
  (getOpcodes aw bw).foldr (fun op acc => refContrib aw op ++ acc) []

/-- Candidate-side full reconstruction. -/
def candReconFull (aw bw : List α) : List α :=
  (getOpcodes aw bw).foldr (fun op acc => candContrib bw op ++ acc) []

/-- Reference-side reconstruction as literally claimed by C1: equal-span
words, missing words, and the reference side of the `replaced` pairs,
which for a Replace opcode is only the zipped prefix. -/
def refReconZip (aw bw : List α) : List α :=
  (getOpcodes aw bw).foldr (fun op acc =>
    (match op.tag with
      | DiffTag.eq => sliceOf aw op.i1 op.i2
      | DiffTag.del => sliceOf aw op.i1 op.i2
      | DiffTag.repl =>
        ((sliceOf aw op.i1 op.i2).zip (sliceOf bw op.j1 op.j2)).map Prod.fst
      | DiffTag.ins => []) ++ acc) []

/-- Candidate-side reconstruction as literally claimed by C1. -/
def candReconZip (aw bw : List α) : List α :=
  (getOpcodes aw bw).foldr (fun op acc =>
    (match op.tag with
      | DiffTag.eq => sliceOf bw op.j1 op.j2
      | DiffTag.ins => sliceOf bw op.j1 op.j2
      | DiffTag.repl =>
        ((sliceOf aw op.i1 op.i2).zip (sliceOf bw op.j1 op.j2)).map Prod.snd
      | DiffTag.del => []) ++ acc) []

theorem refContrib_walk {la lb : Nat} (w : List α) :
    ∀ i j bs, WalkOK la lb i j bs →
      (opcodesAux i j bs).foldr (fun op acc => refContrib w op ++ acc) [] =
        sliceOf w i la := by
  intro i j bs h
  induction h with
  | last hi hj =>
    rename_i i j
    simp only [opcodesAux, foldr_concat_append]
    by_cases h1 : i < la
    · by_cases h2 : j < lb
      · rw [if_pos ⟨h1, h2⟩]
        simp [refContrib]
      · rw [if_neg (by tauto), if_pos h1]
        simp [refContrib]
    · have hila : i = la := by omega
      subst hila
      rw [if_neg (by tauto)]
      rw [if_neg (by omega)]
      by_cases h2 : j < lb
      · rw [if_pos h2]
        simp [refContrib, sliceOf_nil_of_ge w (le_refl i)]
      · rw [if_neg h2]
        simp [sliceOf_nil_of_ge w (le_refl i)]
  | cons hia hjb hkla hklb hrest ih =>
    rename_i i j a b k rest
    simp only [opcodesAux, foldr_concat_append]
    rw [ih]
    have hgap : (if i < a ∧ j < b then [(⟨DiffTag.repl, i, a, j, b⟩ : Opcode)]
        else if i < a then [⟨DiffTag.del, i, a, j, b⟩]
        else if j < b then [⟨DiffTag.ins, i, a, j, b⟩]
        else []).foldr (fun op acc => refContrib w op ++ acc) [] = sliceOf w i a := by
      by_cases h1 : i < a
      · by_cases h2 : j < b
        · rw [if_pos ⟨h1, h2⟩]
          simp [refContrib]
        · rw [if_neg (by tauto), if_pos h1]
          simp [refContrib]
      · have hia' : i = a := by omega
        subst hia'
        rw [if_neg (by tauto), if_neg (by omega)]
        by_cases h2 : j < b
        · rw [if_pos h2]
          simp [refContrib, sliceOf_nil_of_ge w (le_refl i)]
        · rw [if_neg h2]
          simp [sliceOf_nil_of_ge w (le_refl i)]
    rw [hgap]
    have heq : (if k ≠ 0 then [(⟨DiffTag.eq, a, a + k, b, b + k⟩ : Opcode)]
        else []).foldr (fun op acc => refContrib w op ++ acc) [] = sliceOf w a (a + k) := by
      by_cases hk : k = 0
      · rw [if_neg (by omega)]
        subst hk
        simp [sliceOf_nil_of_ge w (le_refl a)]
      · rw [if_pos (by omega)]
        simp [refContrib]
    rw [heq, sliceOf_append w hia (by omega), sliceOf_append w (by omega) (by omega)]

theorem candContrib_walk {la lb : Nat} (w : List α) :
    ∀ i j bs, WalkOK la lb i j bs →
      (opcodesAux i j bs).foldr (fun op acc => candContrib w op ++ acc) [] =
        sliceOf w j lb := by
  intro i j bs h
  induction h with
  | last hi hj =>
    rename_i i j
    simp only [opcodesAux, foldr_concat_append]
    by_cases h2 : j < lb
    · by_cases h1 : i < la
      · rw [if_pos ⟨h1, h2⟩]
        simp [candContrib]
      · rw [if_neg (by tauto), if_neg h1, if_pos h2]
        simp [candContrib]
    · have hjlb : j = lb := by omega
      subst hjlb
      by_cases h1 : i < la
      · rw [if_neg (by tauto), if_pos h1]
        simp [candContrib, sliceOf_nil_of_ge w (le_refl j)]
      · rw [if_neg (by tauto), if_neg h1, if_neg (by omega)]
        simp [sliceOf_nil_of_ge w (le_refl j)]
  | cons hia hjb hkla hklb hrest ih =>
    rename_i i j a b k rest
    simp only [opcodesAux, foldr_concat_append]
    rw [ih]
    have hgap : (if i < a ∧ j < b then [(⟨DiffTag.repl, i, a, j, b⟩ : Opcode)]
        else if i < a then [⟨DiffTag.del, i, a, j, b⟩]
        else if j < b then [⟨DiffTag.ins, i, a, j, b⟩]
        else []).foldr (fun op acc => candContrib w op ++ acc) [] = sliceOf w j b := by
      by_cases h2 : j < b
      · by_cases h1 : i < a
        · rw [if_pos ⟨h1, h2⟩]
          simp [candContrib]
        · rw [if_neg (by tauto), if_neg h1, if_pos h2]
          simp [candContrib]
      · have hjb' : j = b := by omega
        subst hjb'
        by_cases h1 : i < a
        · rw [if_neg (by tauto), if_pos h1]
          simp [candContrib, sliceOf_nil_of_ge w (le_refl j)]
        · rw [if_neg (by tauto), if_neg h1, if_neg (by omega)]
          simp [sliceOf_nil_of_ge w (le_refl j)]
    rw [hgap]
    have heq : (if k ≠ 0 then [(⟨DiffTag.eq, a, a + k, b, b + k⟩ : Opcode)]
        else []).foldr (fun op acc => candContrib w op ++ acc) [] = sliceOf w b (b + k) := by
      by_cases hk : k = 0
      · rw [if_neg (by omega)]
        subst hk
        simp [sliceOf_nil_of_ge w (le_refl b)]
      · rw [if_pos (by omega)]
        simp [candContrib]
    rw [heq, sliceOf_append w hjb (by omega), sliceOf_append w (by omega) (by omega)]

/-- The full-span reference reconstruction over the opcodes of any two
word sequences returns the reference sequence. -/
theorem refReconFull_eq (aw bw : List α) : refReconFull aw bw = aw := by
  unfold refReconFull getOpcodes
  rw [refContrib_walk aw 0 0 _ (matchingBlocks_walkOK aw bw)]
  simp [sliceOf]

/-- The full-span candidate reconstruction over the opcodes of any two
word sequences returns the candidate sequence. -/
theorem candReconFull_eq (aw bw : List α) : candReconFull aw bw = bw := by
  unfold candReconFull getOpcodes
  rw [candContrib_walk bw 0 0 _ (matchingBlocks_walkOK aw bw)]
  simp [sliceOf]

/-- Opcode bounds along a valid walk. -/
theorem opcodesAux_valid {la lb : Nat} :
    ∀ i j bs, WalkOK la lb i j bs →
      ∀ op ∈ opcodesAux i j bs,
        op.i1 ≤ op.i2 ∧ op.i2 ≤ la ∧ op.j1 ≤ op.j2 ∧ op.j2 ≤ lb := by
  intro i j bs hwalk
  induction hwalk with
  | last hi hj =>
    rename_i i j
    intro op hop
    simp only [opcodesAux, List.append_nil] at hop
    rcases List.mem_append.1 hop with h1 | h2
    · by_cases hc1 : i < la ∧ j < lb
      · rw [if_pos hc1] at h1
        rcases List.mem_cons.1 h1 with rfl | hfalse
        · simp only
          omega
        · cases hfalse
      · rw [if_neg hc1] at h1
        by_cases hc2 : i < la
        · rw [if_pos hc2] at h1
          rcases List.mem_cons.1 h1 with rfl | hfalse
          · simp only
            omega
          · cases hfalse
        · rw [if_neg hc2] at h1
          by_cases hc3 : j < lb
          · rw [if_pos hc3] at h1
            rcases List.mem_cons.1 h1 with rfl | hfalse
            · simp only
              omega
            · cases hfalse
          · rw [if_neg hc3] at h1
            cases h1
    · rw [if_neg (by omega)] at h2
      cases h2
  | cons hia hjb hkla hklb hrest ih =>
    rename_i i j a b k rest
    intro op hop
    simp only [opcodesAux] at hop
    rcases List.mem_append.1 hop with h12 | h3
    · rcases List.mem_append.1 h12 with h1 | h2
      · by_cases hc1 : i < a ∧ j < b
        · rw [if_pos hc1] at h1
          rcases List.mem_cons.1 h1 with rfl | hfalse
          · simp only
            omega
          · cases hfalse
        · rw [if_neg hc1] at h1
          by_cases hc2 : i < a
          · rw [if_pos hc2] at h1
            rcases List.mem_cons.1 h1 with rfl | hfalse
            · simp only
              omega
            · cases hfalse
          · rw [if_neg hc2] at h1
            by_cases hc3 : j < b
            · rw [if_pos hc3] at h1
              rcases List.mem_cons.1 h1 with rfl | hfalse
              · simp only
                omega
              · cases hfalse
            · rw [if_neg hc3] at h1
              cases h1
      · by_cases hk : k ≠ 0
        · rw [if_pos hk] at h2
          rcases List.mem_cons.1 h2 with rfl | hfalse
          · simp only
            omega
          · cases hfalse
        · rw [if_neg hk] at h2
          cases h2
    · exact ih op h3

/-- Opcode bounds: every opcode of `get_opcodes` has ordered endpoints
within the two sequences. -/
theorem getOpcodes_valid (aw bw : List α) :
    ∀ op ∈ getOpcodes aw bw,
      op.i1 ≤ op.i2 ∧ op.i2 ≤ aw.length ∧ op.j1 ≤ op.j2 ∧ op.j2 ≤ bw.length :=
  opcodesAux_valid 0 0 _ (matchingBlocks_walkOK aw bw)

/-- C1 counterexample: for the reference `"a b"` and candidate `"c"` the
single Replace opcode spans two reference words but only one candidate
word, so the zipped reference side of `replaced` loses the word `"b"` and
the claimed reconstruction fails on the reference side. -/
theorem c1_counterexample :
    ¬ (refReconZip (splitWs ("a b").data) (splitWs ("c").data) =
        splitWs ("a b").data ∧
      candReconZip (splitWs ("a b").data) (splitWs ("c").data) =
        splitWs ("c").data) := by decide

/-- C1 (amended): concatenating, in opcode order, the Equal-span
reference words, the `missing` words, and the full reference-side span of
each Replace opcode (of which `replaced` keeps only the positionally
zipped prefix) reconstructs the reference word sequence; symmetrically
for the candidate side with `extra` and the full candidate-side Replace
spans. -/
theorem c1_amended (o r : List Char) :
    refReconFull (splitWs o) (splitWs r) = splitWs o ∧
      candReconFull (splitWs o) (splitWs r) = splitWs r :=
  ⟨refReconFull_eq _ _, candReconFull_eq _ _⟩

/-- C2: `replaced` is exactly the concatenation over Replace opcodes of
the positional zip of the two spans — `min(len(ref_span), len(cand_span))`
pairs per opcode — while `missing` and `extra` draw only from Delete and
Insert opcodes, so the surplus words of an uneven Replace span appear in
none of the three outputs. -/
theorem c2_replace_pairing (o r : List Char) :
    (getDiffWords o r).replaced =
      (getOpcodes (splitWs o) (splitWs r)).foldr (fun op acc =>
        (if op.tag = DiffTag.repl then
          (sliceOf (splitWs o) op.i1 op.i2).zip (sliceOf (splitWs r) op.j1 op.j2)
        else []) ++ acc) [] ∧
    (getDiffWords o r).missing =
      (getOpcodes (splitWs o) (splitWs r)).foldr (fun op acc =>
        (if op.tag = DiffTag.del then sliceOf (splitWs o) op.i1 op.i2
        else []) ++ acc) [] ∧
    (getDiffWords o r).extra =
      (getOpcodes (splitWs o) (splitWs r)).foldr (fun op acc =>
        (if op.tag = DiffTag.ins then sliceOf (splitWs r) op.j1 op.j2
        else []) ++ acc) [] ∧
    (∀ op ∈ getOpcodes (splitWs o) (splitWs r), op.tag = DiffTag.repl →
      ((sliceOf (splitWs o) op.i1 op.i2).zip
          (sliceOf (splitWs r) op.j1 op.j2)).length =
        min (op.i2 - op.i1) (op.j2 - op.j1)) := by
  refine ⟨rfl, rfl, rfl, ?_⟩
  intro op hop _
  obtain ⟨h1, h2, h3, h4⟩ := getOpcodes_valid _ _ op hop
  rw [List.length_zip, sliceOf_length _ h2, sliceOf_length _ h4]

/-- Witness for C2 at the uneven Replace opcode of `"a b"` vs `"c"`. -/
theorem c2_replace_pairing_witness :
    ((sliceOf (splitWs ("a b").data) 0 2).zip
        (sliceOf (splitWs ("c").data) 0 1)).length = min (2 - 0) (1 - 0) :=
  (c2_replace_pairing ("a b").data ("c").data).2.2.2
    ⟨DiffTag.repl, 0, 2, 0, 1⟩ (by decide) rfl

theorem mem_collapseWsAux {l : List Char} {flag : Bool} {c : Char}
    (h : c ∈ collapseWsAux l flag) : c ∈ l ∨ c = ' ' := by
  induction l generalizing flag with
  | nil => cases h
  | cons d cs ih =>
    simp only [collapseWsAux] at h
    by_cases hd : pyIsSpace d
    · rw [if_pos hd] at h
      rcases List.mem_append.1 h with h1 | h2
      · right
        rcases flag with _ | _
        · simpa using h1
        · cases h1
      · rcases ih h2 with h3 | h3
        · exact Or.inl (List.mem_cons_of_mem _ h3)
        · exact Or.inr h3
    · rw [if_neg hd] at h
      rcases List.mem_cons.1 h with rfl | h2
      · exact Or.inl (List.mem_cons_self _ _)
      · rcases ih h2 with h3 | h3
        · exact Or.inl (List.mem_cons_of_mem _ h3)
        · exact Or.inr h3

theorem mem_rstripWs {l : List Char} {c : Char} (h : c ∈ rstripWs l) :
    c ∈ l := by
  induction l with
  | nil => cases h
  | cons d cs ih =>
    simp only [rstripWs] at h
    split at h
    · cases h
    · rcases List.mem_cons.1 h with rfl | h2
      · exact List.mem_cons_self _ _
      · exact List.mem_cons_of_mem _ (ih h2)

theorem mem_stripWs {l : List Char} {c : Char} (h : c ∈ stripWs l) :
    c ∈ l :=
  (List.dropWhile_sublist pyIsSpace).mem (mem_rstripWs h)

theorem forall_mem_map_sub {P : Char → Prop} {q : Char → Prop}
    [DecidablePred q] {t : Char} {l : List Char}
    (ht : P t) (hl : ∀ c ∈ l, P c) :
    ∀ c ∈ l.map (fun c => if q c then t else c), P c := by
  intro c hc
  obtain ⟨d, hd, hcd⟩ := List.mem_map.1 hc
  by_cases h : q d
  · rw [if_pos h] at hcd
    exact hcd ▸ ht
  · rw [if_neg h] at hcd
    exact hcd ▸ hl d hd

theorem forall_mem_map_keep {P : Char → Prop} {l : List Char}
    (ht : P ' ') (hl : ∀ c ∈ l, P c) :
    ∀ c ∈ l.map (fun c => if keptChar c then c else ' '), P c := by
  intro c hc
  obtain ⟨d, hd, hcd⟩ := List.mem_map.1 hc
  by_cases h : keptChar d
  · rw [if_pos h] at hcd
    exact hcd ▸ hl d hd
  · rw [if_neg h] at hcd
    exact hcd ▸ ht

theorem forall_mem_collapseWs {P : Char → Prop} {l : List Char}
    (ht : P ' ') (hl : ∀ c ∈ l, P c) : ∀ c ∈ collapseWs l, P c := by
  intro c hc
  rcases mem_collapseWsAux hc with h | h
  · exact hl c h
  · exact h ▸ ht

/-- Every character in the output of `normalize_arabic` satisfies any
property that holds of the space character, of the five substitution
targets, and of every non-tashkeel input character. -/
theorem normalizeArabic_chars {P : Char → Prop} (s : List Char) (ta : Bool)
    (hsp : P ' ') (halef : P (Char.ofNat 0x627)) (hya : P (Char.ofNat 0x64A))
    (hwaw : P (Char.ofNat 0x648)) (hheh : P (Char.ofNat 0x647))
    (hin : ∀ c ∈ s, c ∉ tashkeelChars → P c) :
    ∀ c ∈ normalizeArabic s ta, P c := by
  intro c hc
  unfold normalizeArabic at hc
  have h1 : ∀ d ∈ normTashkeel s, P d := by
    intro d hd
    obtain ⟨hds, hdp⟩ := List.mem_filter.1 hd
    simp only [Bool.not_eq_true', decide_eq_false_iff_not] at hdp
    exact hin d hds hdp
  have h2 := forall_mem_map_sub (q := fun c => c ∈ alefVariants) halef h1
  have h3 := forall_mem_map_sub (q := fun c => c = Char.ofNat 0x649) hya h2
  have h4 := forall_mem_map_sub (q := fun c => c = Char.ofNat 0x624) hwaw h3
  have h5 := forall_mem_map_sub (q := fun c => c = Char.ofNat 0x626) hya h4
  have h6 : ∀ d ∈ normTa ta (normYaHamza (normWawHamza (normMaksura
      (normAlef (normTashkeel s))))), P d := by
    unfold normTa
    by_cases hta : ta
    · rw [if_pos hta]
      exact forall_mem_map_sub (q := fun c => c = Char.ofNat 0x629) hheh h5
    · rw [if_neg hta]
      exact h5
  have h7 := forall_mem_map_keep hsp h6
  have h8 := forall_mem_collapseWs hsp h7
  exact h8 c (mem_stripWs hc)

/-- C6: the output of `normalize_arabic` never contains a tashkeel
diacritic (short-vowel mark, gemination or sukun) or the tatweel
character, for any input string and either value of the flag. -/
theorem c6_no_diacritics (s : List Char) (ta : Bool) :
    ∀ c ∈ normalizeArabic s ta, c ∉ tashkeelChars := by
  refine normalizeArabic_chars s ta ?_ ?_ ?_ ?_ ?_ ?_
  · decide
  · decide
  · decide
  · decide
  · decide
  · intro c _ h
    exact h

/-- Witness for C6: the letter ba is in the normalized output of `"ب"` and
is not a diacritic. -/
theorem c6_no_diacritics_witness : ('ب' : Char) ∉ tashkeelChars :=
  c6_no_diacritics ("ب").data true 'ب' (by decide)

/-- No two adjacent whitespace characters. -/
def noDblWs : List Char → Bool
  | c :: d :: t => (!(pyIsSpace c && pyIsSpace d)) && noDblWs (d :: t)
  | _ => true

theorem noDblWs_tail {c : Char} {l : List Char}
    (h : noDblWs (c :: l) = true) : noDblWs l = true := by
  cases l with
  | nil => rfl
  | cons d t =>
    simp only [noDblWs, Bool.and_eq_true] at h
    exact h.2

theorem noDblWs_cons_of {c : Char} {l : List Char}
    (hl : noDblWs l = true)
    (hhead : ∀ d, l.head? = some d → ¬(pyIsSpace c = true ∧ pyIsSpace d = true)) :
    noDblWs (c :: l) = true := by
  cases l with
  | nil => rfl
  | cons d t =>
    have h1 := hhead d rfl
    simp only [noDblWs, Bool.and_eq_true]
    refine ⟨?_, hl⟩
    cases hc : pyIsSpace c <;> cases hd : pyIsSpace d <;> simp_all

theorem collapse_head_true :
    ∀ (l : List Char) (c : Char),
      (collapseWsAux l true).head? = some c → pyIsSpace c = false := by
  intro l
  induction l with
  | nil =>
    intro c h
    cases h
  | cons d cs ih =>
    intro c h
    simp only [collapseWsAux] at h
    by_cases hd : pyIsSpace d
    · rw [if_pos hd] at h
      simp only [if_true, List.nil_append] at h
      exact ih c h
    · rw [if_neg hd] at h
      injection h with h
      subst h
      simpa using hd

theorem collapse_nodbl (l : List Char) :
    ∀ flag, noDblWs (collapseWsAux l flag) = true := by
  induction l with
  | nil =>
    intro flag
    rfl
  | cons d cs ih =>
    intro flag
    simp only [collapseWsAux]
    by_cases hd : pyIsSpace d
    · rw [if_pos hd]
      cases flag
      · simp only [Bool.false_eq_true, if_false, List.singleton_append]
        refine noDblWs_cons_of (ih true) ?_
        intro e he hcon
        have := collapse_head_true cs e he
        rw [this] at hcon
        exact Bool.false_ne_true hcon.2
      · simpa using ih true
    · rw [if_neg hd]
      refine noDblWs_cons_of (ih false) ?_
      intro e he hcon
      rw [hcon.1] at hd
      exact hd rfl

theorem collapse_wsSingle (l : List Char) :
    ∀ flag c, c ∈ collapseWsAux l flag → pyIsSpace c = true → c = ' ' := by
  induction l with
  | nil =>
    intro flag c hc
    cases hc
  | cons d cs ih =>
    intro flag c hc hsp
    simp only [collapseWsAux] at hc
    by_cases hd : pyIsSpace d
    · rw [if_pos hd] at hc
      rcases List.mem_append.1 hc with h1 | h2
      · cases flag
        · simp only [Bool.false_eq_true, if_false] at h1
          simpa using h1
        · simp only [if_true] at h1
          cases h1
      · exact ih true c h2 hsp
    · rw [if_neg hd] at hc
      rcases List.mem_cons.1 hc with rfl | h2
      · rw [hsp] at hd
        exact absurd rfl hd
      · exact ih false c h2 hsp

theorem noDbl_dropWhile {l : List Char} (h : noDblWs l = true) :
    noDblWs (l.dropWhile pyIsSpace) = true := by
  induction l with
  | nil => rfl
  | cons c cs ih =>
    rw [List.dropWhile_cons]
    by_cases hc : pyIsSpace c
    · rw [if_pos (by simp [hc])]
      exact ih (noDblWs_tail h)
    · rw [if_neg (by simpa using hc)]
      exact h

theorem rstrip_head (l : List Char) :
    rstripWs l = [] ∨ (rstripWs l).head? = l.head? := by
  cases l with
  | nil => exact Or.inl rfl
  | cons c cs =>
    simp only [rstripWs]
    split
    · exact Or.inl rfl
    · exact Or.inr rfl

theorem noDbl_rstrip {l : List Char} (h : noDblWs l = true) :
    noDblWs (rstripWs l) = true := by
  induction l with
  | nil => rfl
  | cons c cs ih =>
    simp only [rstripWs]
    split
    · rfl
    · refine noDblWs_cons_of (ih (noDblWs_tail h)) ?_
      intro e he hcon
      rcases rstrip_head cs with h0 | h0
      · rw [h0] at he
        cases he
      · rw [h0] at he
        cases cs with
        | nil => cases he
        | cons d t =>
          injection he with he
          subst he
          have h1 : (!(pyIsSpace c && pyIsSpace d)) = true := by
            simp only [noDblWs, Bool.and_eq_true] at h
            exact h.1
          rw [hcon.1, hcon.2] at h1
          simp at h1

theorem rstrip_idem (l : List Char) : rstripWs (rstripWs l) = rstripWs l := by
  induction l with
  | nil => rfl
  | cons c cs ih =>
    by_cases h : rstripWs cs = [] ∧ pyIsSpace c = true
    · rw [show rstripWs (c :: cs) = [] from by
        simp only [rstripWs]
        rw [if_pos (by simpa using h)]]
      rfl
    · rw [show rstripWs (c :: cs) = c :: rstripWs cs from by
        simp only [rstripWs]
        rw [if_neg (by simpa using h)]]
      simp only [rstripWs]
      rw [ih, if_neg (by simpa using h)]

theorem dropWhile_head {p : Char → Bool} :
    ∀ {l : List Char} {c : Char}, (l.dropWhile p).head? = some c → p c = false := by
  intro l
  induction l with
  | nil =>
    intro c h
    cases h
  | cons d cs ih =>
    intro c h
    rw [List.dropWhile_cons] at h
    by_cases hd : p d
    · rw [if_pos (by simp [hd])] at h
      exact ih h
    · rw [if_neg (by simpa using hd)] at h
      injection h with h
      subst h
      simpa using hd

theorem collapse_noop_aux (l : List Char) :
    (∀ c ∈ l, pyIsSpace c = true → c = ' ') → noDblWs l = true →
      collapseWsAux l false = l ∧
        ((∀ x, l.head? = some x → pyIsSpace x = false) →
          collapseWsAux l true = l) := by
  induction l with
  | nil => exact fun _ _ => ⟨rfl, fun _ => rfl⟩
  | cons c cs ih =>
    intro hws hdbl
    obtain ⟨ih1, ih2⟩ := ih (fun d hd => hws d (List.mem_cons_of_mem _ hd))
      (noDblWs_tail hdbl)
    have hmain : collapseWsAux (c :: cs) false = c :: cs := by
      simp only [collapseWsAux]
      by_cases hc : pyIsSpace c
      · rw [if_pos hc]
        have hcsp : c = ' ' := hws c (List.mem_cons_self _ _) hc
        have hcs : collapseWsAux cs true = cs := by
          apply ih2
          intro x hx
          cases cs with
          | nil => cases hx
          | cons d t =>
            injection hx with hx
            subst hx
            have h1 : (!(pyIsSpace c && pyIsSpace d)) = true := by
              simp only [noDblWs, Bool.and_eq_true] at hdbl
              exact hdbl.1
            rw [hc] at h1
            cases hd : pyIsSpace d
            · rfl
            · rw [hd] at h1
              simp at h1
        rw [hcs]
        simp [hcsp]
      · rw [if_neg hc, ih1]
    refine ⟨hmain, ?_⟩
    intro hx
    simp only [collapseWsAux]
    by_cases hc : pyIsSpace c
    · have := hx c rfl
      rw [hc] at this
      cases this
    · rw [if_neg hc, ih1]

/-- Collapsing whitespace and stripping is idempotent as a combined
operation. -/
theorem stripWs_collapseWs_noop (X : List Char) :
    stripWs (collapseWs (stripWs (collapseWs X))) = stripWs (collapseWs X) := by
  have hws : ∀ c ∈ stripWs (collapseWs X), pyIsSpace c = true → c = ' ' :=
    fun c hc hsp => collapse_wsSingle X false c (mem_stripWs hc) hsp
  have hdbl : noDblWs (stripWs (collapseWs X)) = true :=
    noDbl_rstrip (noDbl_dropWhile (collapse_nodbl X false))
  have hcol : collapseWs (stripWs (collapseWs X)) = stripWs (collapseWs X) :=
    (collapse_noop_aux _ hws hdbl).1
  rw [hcol]
  have hhead : ∀ x, (stripWs (collapseWs X)).head? = some x → pyIsSpace x = false := by
    intro x hx
    rcases rstrip_head ((collapseWs X).dropWhile pyIsSpace) with h0 | h0
    · rw [show stripWs (collapseWs X) =
          rstripWs ((collapseWs X).dropWhile pyIsSpace) from rfl, h0] at hx
      cases hx
    · rw [show stripWs (collapseWs X) =
          rstripWs ((collapseWs X).dropWhile pyIsSpace) from rfl, h0] at hx
      exact dropWhile_head hx
  have hdw : (stripWs (collapseWs X)).dropWhile pyIsSpace = stripWs (collapseWs X) := by
    cases hne : stripWs (collapseWs X) with
    | nil => rfl
    | cons c t =>
      rw [List.dropWhile_cons]
      have := hhead c (by rw [hne]; rfl)
      rw [if_neg (by simp [this])]
  show rstripWs ((stripWs (collapseWs X)).dropWhile pyIsSpace) = stripWs (collapseWs X)
  rw [hdw]
  show rstripWs (rstripWs ((collapseWs X).dropWhile pyIsSpace)) = _
  exact rstrip_idem _

theorem map_sub_source {q : Char → Prop} [DecidablePred q] {t : Char}
    {l : List Char} :
    ∀ c ∈ l.map (fun c => if q c then t else c), q c → c = t := by
  intro c hc hq
  obtain ⟨d, hd, hcd⟩ := List.mem_map.1 hc
  by_cases h : q d
  · rw [if_pos h] at hcd
    exact hcd.symm
  · rw [if_neg h] at hcd
    subst hcd
    exact absurd hq h

theorem map_sub_ne {t x : Char} (hx : t ≠ x) (l : List Char) :
    ∀ c ∈ l.map (fun c => if c = x then t else c), c ≠ x := by
  intro c hc
  obtain ⟨d, hd, hcd⟩ := List.mem_map.1 hc
  by_cases h : d = x
  · rw [if_pos h] at hcd
    intro hcx
    exact hx (hcd.trans hcx)
  · rw [if_neg h] at hcd
    subst hcd
    exact h

theorem map_id_on {f : Char → Char} :
    ∀ {l : List Char}, (∀ c ∈ l, f c = c) → l.map f = l := by
  intro l h
  induction l with
  | nil => rfl
  | cons c cs ih =>
    simp only [List.map_cons]
    rw [h c (List.mem_cons_self _ _), ih (fun d hd => h d (List.mem_cons_of_mem _ hd))]

theorem normCharsFrom7 {P : Char → Prop} (l : List Char) (hsp : P ' ')
    (h : ∀ c ∈ normPunct l, P c) :
    ∀ c ∈ stripWs (collapseWs (normPunct l)), P c :=
  fun c hc => forall_mem_collapseWs hsp h c (mem_stripWs hc)

theorem normCharsFrom6 {P : Char → Prop} (ta : Bool) (l : List Char) (hsp : P ' ')
    (h : ∀ c ∈ normTa ta l, P c) :
    ∀ c ∈ stripWs (collapseWs (normPunct (normTa ta l))), P c :=
  normCharsFrom7 _ hsp (forall_mem_map_keep hsp h)

theorem normCharsFrom5 {P : Char → Prop} (ta : Bool) (l : List Char) (hsp : P ' ')
    (hheh : P (Char.ofNat 0x647)) (h : ∀ c ∈ normYaHamza l, P c) :
    ∀ c ∈ stripWs (collapseWs (normPunct (normTa ta (normYaHamza l)))), P c := by
  refine normCharsFrom6 ta _ hsp ?_
  unfold normTa
  by_cases hta : ta
  · rw [if_pos hta]
    exact forall_mem_map_sub hheh h
  · rw [if_neg hta]
    exact h

theorem normCharsFrom4 {P : Char → Prop} (ta : Bool) (l : List Char) (hsp : P ' ')
    (hheh : P (Char.ofNat 0x647)) (hya : P (Char.ofNat 0x64A))
    (h : ∀ c ∈ normWawHamza l, P c) :
    ∀ c ∈ stripWs (collapseWs (normPunct (normTa ta
      (normYaHamza (normWawHamza l))))), P c :=
  normCharsFrom5 ta _ hsp hheh (forall_mem_map_sub hya h)

theorem normCharsFrom3 {P : Char → Prop} (ta : Bool) (l : List Char) (hsp : P ' ')
    (hheh : P (Char.ofNat 0x647)) (hya : P (Char.ofNat 0x64A))
    (hwaw : P (Char.ofNat 0x648)) (h : ∀ c ∈ normMaksura l, P c) :
    ∀ c ∈ stripWs (collapseWs (normPunct (normTa ta
      (normYaHamza (normWawHamza (normMaksura l)))))), P c :=
  normCharsFrom4 ta _ hsp hheh hya (forall_mem_map_sub hwaw h)

theorem normCharsFrom2 {P : Char → Prop} (ta : Bool) (l : List Char) (hsp : P ' ')
    (hheh : P (Char.ofNat 0x647)) (hya : P (Char.ofNat 0x64A))
    (hwaw : P (Char.ofNat 0x648)) (h : ∀ c ∈ normAlef l, P c) :
    ∀ c ∈ stripWs (collapseWs (normPunct (normTa ta
      (normYaHamza (normWawHamza (normMaksura (normAlef l))))))), P c :=
  normCharsFrom3 ta _ hsp hheh hya hwaw (forall_mem_map_sub hya h)

/-- After normalization the only remaining alef variant is the bare
alef. -/
theorem norm_alef_only (s : List Char) (ta : Bool) :
    ∀ c ∈ normalizeArabic s ta, c ∈ alefVariants → c = Char.ofNat 0x627 := by
  unfold normalizeArabic
  exact normCharsFrom2 ta _ (by decide) (by decide) (by decide) (by decide)
    (map_sub_source (q := fun c => c ∈ alefVariants))

/-- The normalized output contains no alef maksura. -/
theorem norm_no_maksura (s : List Char) (ta : Bool) :
    ∀ c ∈ normalizeArabic s ta, c ≠ Char.ofNat 0x649 := by
  unfold normalizeArabic
  exact normCharsFrom3 ta _ (by decide) (by decide) (by decide) (by decide)
    (map_sub_ne (by decide) _)

/-- The normalized output contains no waw-hamza. -/
theorem norm_no_wawHamza (s : List Char) (ta : Bool) :
    ∀ c ∈ normalizeArabic s ta, c ≠ Char.ofNat 0x624 := by
  unfold normalizeArabic
  exact normCharsFrom4 ta _ (by decide) (by decide) (by decide)
    (map_sub_ne (by decide) _)

/-- The normalized output contains no ya-hamza. -/
theorem norm_no_yaHamza (s : List Char) (ta : Bool) :
    ∀ c ∈ normalizeArabic s ta, c ≠ Char.ofNat 0x626 := by
  unfold normalizeArabic
  exact normCharsFrom5 ta _ (by decide) (by decide)
    (map_sub_ne (by decide) _)

/-- With the flag set, the normalized output contains no ta-marbuta. -/
theorem norm_no_taMarbuta (s : List Char) :
    ∀ c ∈ normalizeArabic s true, c ≠ Char.ofNat 0x629 := by
  unfold normalizeArabic
  refine normCharsFrom6 true _ (by decide) ?_
  unfold normTa
  rw [if_pos rfl]
  exact map_sub_ne (by decide) _

/-- Every character of the normalized output is kept by the punctuation
substitution. -/
theorem norm_kept (s : List Char) (ta : Bool) :
    ∀ c ∈ normalizeArabic s ta, keptChar c = true := by
  unfold normalizeArabic
  refine normCharsFrom7 _ (by decide) ?_
  intro c hc
  obtain ⟨d, hd, hcd⟩ := List.mem_map.1 hc
  by_cases h : keptChar d
  · rw [if_pos h] at hcd
    exact hcd ▸ h
  · rw [if_neg h] at hcd
    exact hcd ▸ (by decide)

/-- C5: `normalize_arabic` is idempotent for either value of the
normalize-ta flag. -/
theorem c5_normalize_idempotent (s : List Char) (ta : Bool) :
    normalizeArabic (normalizeArabic s ta) ta = normalizeArabic s ta := by
  have h1 : normTashkeel (normalizeArabic s ta) = normalizeArabic s ta := by
    refine List.filter_eq_self.2 ?_
    intro c hc
    simp only [Bool.not_eq_true', decide_eq_false_iff_not]
    exact c6_no_diacritics s ta c hc
  have h2 : normAlef (normalizeArabic s ta) = normalizeArabic s ta := by
    refine map_id_on ?_
    intro c hc
    by_cases h : c ∈ alefVariants
    · rw [if_pos h, (norm_alef_only s ta c hc h)]
    · rw [if_neg h]
  have h3 : normMaksura (normalizeArabic s ta) = normalizeArabic s ta := by
    refine map_id_on ?_
    intro c hc
    rw [if_neg (norm_no_maksura s ta c hc)]
  have h4 : normWawHamza (normalizeArabic s ta) = normalizeArabic s ta := by
    refine map_id_on ?_
    intro c hc
    rw [if_neg (norm_no_wawHamza s ta c hc)]
  have h5 : normYaHamza (normalizeArabic s ta) = normalizeArabic s ta := by
    refine map_id_on ?_
    intro c hc
    rw [if_neg (norm_no_yaHamza s ta c hc)]
  have h6 : normTa ta (normalizeArabic s ta) = normalizeArabic s ta := by
    unfold normTa
    by_cases hta : ta
    · subst hta
      rw [if_pos rfl]
      refine map_id_on ?_
      intro c hc
      rw [if_neg (norm_no_taMarbuta s c hc)]
    · rw [if_neg hta]
  have h7 : normPunct (normalizeArabic s ta) = normalizeArabic s ta := by
    refine map_id_on ?_
    intro c hc
    rw [if_pos (norm_kept s ta c hc)]
  show stripWs (collapseWs (normPunct (normTa ta (normYaHamza (normWawHamza
    (normMaksura (normAlef (normTashkeel (normalizeArabic s ta))))))))) =
    normalizeArabic s ta
  rw [h1, h2, h3, h4, h5, h6, h7]
  show stripWs (collapseWs (stripWs (collapseWs _))) = _
  exact stripWs_collapseWs_noop _

/-- Spec-side definition (follows the spec's words in §4.2a): the
candidate positions of common contiguous blocks with their lengths, in
reference-outer, candidate-inner scan order. -/
def specBlockCands (a b : List α) : List (Nat × Nat × Nat) :=
  (List.range a.length).flatMap fun i =>
    (List.range b.length).map fun j => (i, j, commonRun (a.drop i) (b.drop j))

/-- Spec-side definition: the length of the longest common contiguous
block. -/
def specMaxRun (a b : List α) : Nat :=
  (specBlockCands a b).foldr (fun c m => max c.2.2 m) 0

/-- Spec-side definition: the longest common contiguous block, with the
spec's tie-break (the first maximal block in reference-outer,
candidate-inner, increasing start-index scan order). -/
def specLongestBlock (a b : List α) : Nat × Nat × Nat :=
  match (specBlockCands a b).find? (fun c => c.2.2 = specMaxRun a b) with
  | some c => c
  | none => (0, 0, 0)

/-- Fuelled spec-side gestalt matching count: find the longest common
contiguous block, recurse on the left and right remainders, and sum the
match lengths. -/
def specMatchesFuel : Nat → List α → List α → Nat
  | 0, _, _ => 0
  | fuel + 1, a, b =>
    let t := specLongestBlock a b
    if t.2.2 = 0 then 0
    else
      t.2.2 + specMatchesFuel fuel (a.take t.1) (b.take t.2.1) +
        specMatchesFuel fuel (a.drop (t.1 + t.2.2)) (b.drop (t.2.1 + t.2.2))

/-- Spec-side definition (§4.2a): the total number of matching characters
found by the recursive longest-matching-block alignment. -/
def specMatches (a b : List α) : Nat :=
  specMatchesFuel (a.length + b.length) a b

/-- Spec-side definition: the claimed similarity percentage
`round(100 * (2*M / T), 2)`, with the spec's stipulation that two empty
strings compare at ratio `1.0`, i.e. 100 percent. -/
def specSimilarityPercent (a b : List Char) : ℚ :=
  if a.length + b.length = 0 then 100
  else pyRound2 (100 * (2 * (specMatches a b : ℚ) /
    ((a.length : ℚ) + (b.length : ℚ))))

theorem runNP_nilP (x y : List α) : runNP [] x y = commonRun x y := by
  induction x generalizing y with
  | nil =>
    rw [runNP_nil_left]
    cases y <;> rfl
  | cons a xs ih =>
    cases y with
    | nil => rfl
    | cons b ys =>
      rw [runNP_cons, commonRun_cons]
      by_cases h : a = b
      · rw [if_pos ⟨h, by simp⟩, if_pos h, ih]
      · rw [if_neg (by tauto), if_neg h]

theorem specBlockCands_eq (a b : List α) :
    specBlockCands a b = blockCands ([] : List α) a b := by
  unfold specBlockCands blockCands
  congr 1
  funext i
  congr 1
  funext j
  rw [runNP_nilP]

theorem specMaxRun_eq (a b : List α) :
    specMaxRun a b = maxRun ([] : List α) a b := by
  unfold specMaxRun maxRun
  rw [specBlockCands_eq]

theorem specLongestBlock_eq (a b : List α) :
    specLongestBlock a b = bestBlock ([] : List α) a b := by
  unfold specLongestBlock bestBlock
  rw [specBlockCands_eq, specMaxRun_eq]

theorem commonRun_drop_of_eq {x y : List α} {k : Nat}
    (h : commonRun x y = k) : commonRun (x.drop k) (y.drop k) = 0 := by
  induction x generalizing y k with
  | nil =>
    have h0 : k = 0 := by
      rw [← h]
      cases y <;> rfl
    subst h0
    cases y <;> rfl
  | cons a xs ih =>
    cases y with
    | nil =>
      have h0 : k = 0 := by
        rw [← h]
        rfl
      subst h0
      rfl
    | cons b ys =>
      rw [commonRun_cons] at h
      by_cases hab : a = b
      · rw [if_pos hab] at h
        obtain ⟨m, rfl⟩ : ∃ m, k = m + 1 := ⟨commonRun xs ys, by omega⟩
        simp only [List.drop_succ_cons]
        exact ih (by omega)
      · rw [if_neg hab] at h
        subst h
        simp only [List.drop_zero]
        rw [commonRun_cons, if_neg hab]

theorem commonRun_pos_heads {x y : List α}
    (h : 0 < commonRun x y) : ∃ c x' y', x = c :: x' ∧ y = c :: y' := by
  cases x with
  | nil => simp [commonRun] at h
  | cons a xs =>
    cases y with
    | nil => simp [commonRun] at h
    | cons b ys =>
      rw [commonRun_cons] at h
      by_cases hab : a = b
      · exact ⟨a, xs, ys, rfl, by rw [hab]⟩
      · rw [if_neg hab] at h
        omega

/-- Without popular elements the extension loops of `find_longest_match`
cannot extend the already-maximal block: the match returned is exactly
the dynamic program's best block. -/
theorem findLongestMatch_nilP (a b : List α) :
    findLongestMatch ([] : List α) a b = bestBlock ([] : List α) a b := by
  obtain ⟨i, j, k, ht⟩ : ∃ i j k, bestBlock ([] : List α) a b = (i, j, k) :=
    ⟨_, _, _, rfl⟩
  obtain ⟨hrun, hmax, hik, hjk, _⟩ := bestBlock_spec ht
  rw [runNP_nilP] at hrun
  have hmax' : ∀ i' j', commonRun (a.drop i') (b.drop j') ≤ k := by
    intro i' j'
    have := hmax i' j'
    rw [runNP_nilP] at this
    exact this
  unfold findLongestMatch
  rw [ht]
  simp only
  have hf : commonRun (a.drop (i + k)) (b.drop (j + k)) = 0 := by
    have h1 := commonRun_drop_of_eq hrun.symm
    rw [List.drop_drop, List.drop_drop] at h1
    exact h1
  have he : commonRun ((a.take i).reverse) ((b.take j).reverse) = 0 := by
    by_contra hne
    have hpos : 0 < commonRun ((a.take i).reverse) ((b.take j).reverse) := by
      omega
    obtain ⟨c, u, v, hu, hv⟩ := commonRun_pos_heads hpos
    have hai : a.take i = u.reverse ++ [c] := by
      have := congrArg List.reverse hu
      simpa using this
    have hbj : b.take j = v.reverse ++ [c] := by
      have := congrArg List.reverse hv
      simpa using this
    have hilen : u.reverse.length = i - 1 ∧ 1 ≤ i := by
      have h1 := congrArg List.length hai
      simp only [List.length_take, List.length_append, List.length_singleton,
        List.length_reverse] at h1
      simp only [List.length_reverse]
      omega
    have hjlen : v.reverse.length = j - 1 ∧ 1 ≤ j := by
      have h1 := congrArg List.length hbj
      simp only [List.length_take, List.length_append, List.length_singleton,
        List.length_reverse] at h1
      simp only [List.length_reverse]
      omega
    have hda : a.drop (i - 1) = c :: a.drop i := by
      have h1 : a = a.take i ++ a.drop i := (List.take_append_drop i a).symm
      calc a.drop (i - 1) = (a.take i ++ a.drop i).drop (i - 1) := by rw [← h1]
        _ = (u.reverse ++ [c]).drop (i - 1) ++ a.drop i := by
            rw [hai]
            rw [List.drop_append_of_le_length]
            simp only [List.length_append, List.length_singleton]
            omega
        _ = c :: a.drop i := by
            rw [show u.reverse ++ [c] = u.reverse ++ [c] from rfl]
            rw [← hilen.1]
            rw [List.drop_left]
            rfl
    have hdb : b.drop (j - 1) = c :: b.drop j := by
      have h1 : b = b.take j ++ b.drop j := (List.take_append_drop j b).symm
      calc b.drop (j - 1) = (b.take j ++ b.drop j).drop (j - 1) := by rw [← h1]
        _ = (v.reverse ++ [c]).drop (j - 1) ++ b.drop j := by
            rw [hbj]
            rw [List.drop_append_of_le_length]
            simp only [List.length_append, List.length_singleton]
            omega
        _ = c :: b.drop j := by
            rw [← hjlen.1]
            rw [List.drop_left]
            rfl
    have hcontra := hmax' (i - 1) (j - 1)
    rw [hda, hdb, commonRun_cons, if_pos rfl, ← hrun] at hcontra
    omega
  rw [he, hf]
  simp

theorem specLongestBlock_nil_nil :
    specLongestBlock ([] : List α) ([] : List α) = (0, 0, 0) := rfl

theorem specMatchesFuel_eq_of_le :
    ∀ (fuel₁ fuel₂ : Nat) (a b : List α), a.length + b.length ≤ fuel₁ →
      a.length + b.length ≤ fuel₂ →
      specMatchesFuel fuel₁ a b = specMatchesFuel fuel₂ a b := by
  intro fuel₁
  induction fuel₁ with
  | zero =>
    intro fuel₂ a b h₁ h₂
    have ha : a = [] := List.length_eq_zero.1 (by omega)
    have hb : b = [] := List.length_eq_zero.1 (by omega)
    subst ha; subst hb
    cases fuel₂ with
    | zero => rfl
    | succ g =>
      show (0 : Nat) = _
      simp [specMatchesFuel, specLongestBlock_nil_nil]
  | succ f ih =>
    intro fuel₂ a b h₁ h₂
    cases fuel₂ with
    | zero =>
      have ha : a = [] := List.length_eq_zero.1 (by omega)
      have hb : b = [] := List.length_eq_zero.1 (by omega)
      subst ha; subst hb
      show _ = (0 : Nat)
      simp [specMatchesFuel, specLongestBlock_nil_nil]
    | succ g =>
      simp only [specMatchesFuel]
      obtain ⟨i, j, k, ht⟩ : ∃ i j k, specLongestBlock a b = (i, j, k) := ⟨_, _, _, rfl⟩
      rw [ht]
      simp only
      by_cases hk : k = 0
      · rw [if_pos hk, if_pos hk]
      · rw [if_neg hk, if_neg hk]
        have hspec := bestBlock_spec ((specLongestBlock_eq a b).symm.trans ht)
        obtain ⟨_, _, hik, hjk, _⟩ := hspec
        rw [ih g _ _ (by simp only [List.length_take]; omega)
            (by simp only [List.length_take]; omega),
          ih g _ _ (by simp only [List.length_drop]; omega)
            (by simp only [List.length_drop]; omega)]

/-- The defining recursion of `specMatches`, independent of fuel. -/
theorem specMatches_eq (a b : List α) :
    specMatches a b =
      (match specLongestBlock a b with
        | (i, j, k) =>
          if k = 0 then 0
          else k + specMatches (a.take i) (b.take j) +
            specMatches (a.drop (i + k)) (b.drop (j + k))) := by
  obtain ⟨i, j, k, ht⟩ : ∃ i j k, specLongestBlock a b = (i, j, k) := ⟨_, _, _, rfl⟩
  rw [ht]
  simp only
  unfold specMatches
  rcases Nat.eq_zero_or_pos (a.length + b.length) with h0 | hpos
  · have ha : a = [] := List.length_eq_zero.1 (by omega)
    have hb : b = [] := List.length_eq_zero.1 (by omega)
    subst ha; subst hb
    have hk : k = 0 := by
      have h1 := specLongestBlock_nil_nil.symm.trans ht
      have h2 := congrArg (fun t : Nat × Nat × Nat => t.2.2) h1
      simp only at h2
      omega
    rw [if_pos hk]
    rfl
  · obtain ⟨n, hn⟩ : ∃ n, a.length + b.length = n + 1 := ⟨a.length + b.length - 1, by omega⟩
    rw [hn]
    simp only [specMatchesFuel]
    rw [ht]
    simp only
    by_cases hk : k = 0
    · rw [if_pos hk, if_pos hk]
    · rw [if_neg hk, if_neg hk]
      have hspec := bestBlock_spec ((specLongestBlock_eq a b).symm.trans ht)
      obtain ⟨_, _, hik, hjk, _⟩ := hspec
      rw [specMatchesFuel_eq_of_le n _ _ _
          (by simp only [List.length_take]; omega) (le_refl _),
        specMatchesFuel_eq_of_le n _ _ _
          (by simp only [List.length_drop]; omega) (le_refl _)]

/-- Without autojunk (empty popular set) the block matcher finds exactly
the spec's recursive gestalt matches. -/
theorem blockSumAux_spec :
    ∀ (n : Nat) (a b : List α) (aoff boff : Nat), a.length + b.length ≤ n →
      ((matchingBlocksAux ([] : List α) a b aoff boff).map
        (fun t => t.2.2)).sum = specMatches a b := by
  intro n
  induction n with
  | zero =>
    intro a b aoff boff h
    have ha : a = [] := List.length_eq_zero.1 (by omega)
    have hb : b = [] := List.length_eq_zero.1 (by omega)
    subst ha; subst hb
    rw [matchingBlocksAux_nil_nil]
    rfl
  | succ n ih =>
    intro a b aoff boff h
    rw [matchingBlocksAux_eq, findLongestMatch_nilP, ← specLongestBlock_eq,
      specMatches_eq]
    obtain ⟨i, j, k, ht⟩ : ∃ i j k, specLongestBlock a b = (i, j, k) := ⟨_, _, _, rfl⟩
    rw [ht]
    simp only
    by_cases hk : k = 0
    · rw [if_pos hk, if_pos hk]
      rfl
    · rw [if_neg hk, if_neg hk]
      have hspec := bestBlock_spec ((specLongestBlock_eq a b).symm.trans ht)
      obtain ⟨_, _, hik, hjk, _⟩ := hspec
      rw [List.map_append, List.sum_append, List.map_cons, List.sum_cons]
      rw [ih _ _ aoff boff (by simp only [List.length_take]; omega),
        ih _ _ (aoff + i + k) (boff + j + k) (by simp only [List.length_drop]; omega)]
      have hproj : ((aoff + i, boff + j, k) : Nat × Nat × Nat).2.2 = k := rfl
      rw [hproj]
      omega

theorem mergeAcc_sum :
    ∀ (bs : List (Nat × Nat × Nat)) (acc : Nat × Nat × Nat),
      ((mergeAcc acc bs).map (fun t => t.2.2)).sum =
        acc.2.2 + (bs.map (fun t => t.2.2)).sum := by
  intro bs
  induction bs with
  | nil =>
    intro acc
    obtain ⟨i1, j1, k1⟩ := acc
    show ((if k1 ≠ 0 then [(i1, j1, k1)] else []).map (fun t => t.2.2)).sum = _
    by_cases hk : k1 = 0
    · rw [if_neg (by omega)]
      simp [hk]
    · rw [if_pos (by omega)]
      simp
  | cons hd rest ih =>
    intro acc
    obtain ⟨i1, j1, k1⟩ := acc
    obtain ⟨i2, j2, k2⟩ := hd
    show ((mergeAcc _ ((i2, j2, k2) :: rest)).map _).sum = _
    simp only [mergeAcc]
    by_cases hadj : i1 + k1 = i2 ∧ j1 + k1 = j2
    · rw [if_pos hadj, ih]
      simp only [List.map_cons, List.sum_cons]
      omega
    · rw [if_neg hadj]
      by_cases hk : k1 = 0
      · rw [if_neg (by omega)]
        simp only [List.nil_append, ih, List.map_cons, List.sum_cons]
        try omega
      · rw [if_pos (by omega)]
        simp only [List.cons_append, List.nil_append, List.map_cons, List.sum_cons, ih]
        try omega

theorem popularList_short {b : List α} (hb : b.length < 200) :
    popularList b = [] := by
  unfold popularList
  rw [if_neg (by omega)]

/-- Below the autojunk threshold the matcher's total match count equals
the spec's recursive gestalt count. -/
theorem seqMatches_eq_spec (a b : List α) (hb : b.length < 200) :
    seqMatches a b = specMatches a b := by
  unfold seqMatches matchingBlocks
  rw [popularList_short hb]
  rw [List.map_append, List.sum_append, mergeAcc_sum]
  simp only [List.map_cons, List.sum_cons, List.map_nil, List.sum_nil]
  rw [blockSumAux_spec (a.length + b.length) a b 0 0 (le_refl _)]
  simp

/-- C3 (amended): provided the candidate string is shorter than 200
characters — so that difflib's autojunk heuristic does not engage — the
similarity percentage computed in `main` equals
`round(100 * (2*M / T), 2)` with `M` the recursive longest-matching-block
gestalt match count and `T` the total length, the both-empty case being
100 by the standard ratio convention. -/
theorem c3_amended (a b : List Char) (hb : b.length < 200) :
    similarityPercent a b = specSimilarityPercent a b := by
  unfold similarityPercent specSimilarityPercent seqRatio
  rw [seqMatches_eq_spec a b hb]
  by_cases hT : a.length + b.length = 0
  · rw [if_pos hT, if_pos hT]
    simpa using pyRound2_hundred
  · rw [if_neg hT, if_neg hT]
    congr 1
    ring

/-- Witness for C3's amended statement at concrete short inputs. -/
theorem c3_amended_witness :
    (("b").data).length < 200 ∧
      similarityPercent ("ab").data ("b").data =
        specSimilarityPercent ("ab").data ("b").data :=
  ⟨by decide, c3_amended _ _ (by decide)⟩

/-- C3 counterexample: with the candidate `'a' * 200`, autojunk makes the
letter `a` popular, the dynamic program can seed no match, and the
extension loops fail at the first character of `"xa"`, so the computed
similarity is 0.0, while the claimed gestalt formula gives
`round(100 * 2/202, 2) = 0.99`. -/
theorem c3_counterexample :
    ¬ (similarityPercent ("xa").data (List.replicate 200 'a') =
        pyRound2 (100 * (2 * (specMatches ("xa").data (List.replicate 200 'a') : ℚ) /
          (((("xa").data).length : ℚ) + (((List.replicate 200 'a') : List Char).length : ℚ))))) := by
  have hM : seqMatches ("xa").data (List.replicate 200 'a') = 0 := by decide
  have hS : specMatches ("xa").data (List.replicate 200 'a') = 1 := by decide
  have hl1 : (("xa").data).length = 2 := by decide
  have hl2 : ((List.replicate 200 'a') : List Char).length = 200 := by simp
  simp only [similarityPercent, seqRatio, pyRound2, roundHalfEven, hM, hS, hl1, hl2]
  norm_num

theorem joinWs_nil : joinWs [] = [] := rfl

theorem joinWs_single (w : List Char) : joinWs [w] = w := rfl

theorem joinWs_cons₂ (w x : List Char) (xs : List (List Char)) :
    joinWs (w :: x :: xs) = w ++ ' ' :: joinWs (x :: xs) := rfl

/-- Words produced by `splitWs` are nonempty and whitespace-free. -/
theorem splitWsAux_wordOk :
    ∀ (l acc : List Char), (∀ c ∈ acc, pyIsSpace c = false) →
      ∀ w ∈ splitWsAux l acc, w ≠ [] ∧ ∀ c ∈ w, pyIsSpace c = false := by
  intro l
  induction l with
  | nil =>
    intro acc hacc w hw
    simp only [splitWsAux] at hw
    by_cases ha : acc = []
    · rw [if_pos ha] at hw
      cases hw
    · rw [if_neg ha] at hw
      rcases List.mem_cons.1 hw with rfl | h
      · refine ⟨by simpa using ha, ?_⟩
        intro c hc
        exact hacc c (by simpa using hc)
      · cases h
  | cons d cs ih =>
    intro acc hacc w hw
    simp only [splitWsAux] at hw
    by_cases hd : pyIsSpace d
    · rw [if_pos hd] at hw
      rcases List.mem_append.1 hw with h1 | h2
      · by_cases ha : acc = []
        · rw [if_pos ha] at h1
          cases h1
        · rw [if_neg ha] at h1
          rcases List.mem_cons.1 h1 with rfl | h
          · refine ⟨by simpa using ha, ?_⟩
            intro c hc
            exact hacc c (by simpa using hc)
          · cases h
      · exact ih [] (by simp) w h2
    · rw [if_neg hd] at hw
      refine ih (d :: acc) ?_ w hw
      intro c hc
      rcases List.mem_cons.1 hc with rfl | h
      · simpa using hd
      · exact hacc c h

theorem splitWs_wordOk (s : List Char) :
    ∀ w ∈ splitWs s, w ≠ [] ∧ ∀ c ∈ w, pyIsSpace c = false :=
  splitWsAux_wordOk s [] (by simp)

theorem removeSub_nil (pat : List Char) : removeSub pat [] = [] := rfl

theorem removeSubAux_skip (pat : List Char) :
    ∀ (s : List Char) (n : Nat),
      removeSubAux pat s n = removeSubAux pat (s.drop n) 0 := by
  intro s
  induction s with
  | nil =>
    intro n
    cases n <;> rfl
  | cons c cs ih =>
    intro n
    cases n with
    | zero => rfl
    | succ m =>
      show removeSubAux pat cs m = _
      rw [ih m]
      rfl

theorem removeSub_match {pat s : List Char} (hp : pat ≠ [])
    (h : pat <+: s) (hs : s ≠ []) :
    removeSub pat s = removeSub pat (s.drop pat.length) := by
  obtain ⟨c, cs, rfl⟩ : ∃ c cs, s = c :: cs := by
    cases s with
    | nil => exact absurd rfl hs
    | cons c cs => exact ⟨c, cs, rfl⟩
  show removeSubAux pat (c :: cs) 0 = _
  rw [show removeSubAux pat (c :: cs) 0 =
      if pat.isPrefixOf (c :: cs) ∧ pat ≠ [] then removeSubAux pat cs (pat.length - 1)
      else c :: removeSubAux pat cs 0 from rfl]
  rw [if_pos ⟨List.isPrefixOf_iff_prefix.2 h, hp⟩]
  rw [removeSubAux_skip]
  have hlen : 1 ≤ pat.length := by
    cases pat with
    | nil => exact absurd rfl hp
    | cons _ _ => simp
  rw [show (c :: cs).drop pat.length = cs.drop (pat.length - 1) from by
    cases hpl : pat.length with
    | zero => omega
    | succ m => simp only [List.drop_succ_cons, Nat.add_sub_cancel]]
  rfl

theorem removeSub_emit {pat : List Char} {c : Char} {cs : List Char}
    (h : ¬ pat <+: (c :: cs)) :
    removeSub pat (c :: cs) = c :: removeSub pat cs := by
  show removeSubAux pat (c :: cs) 0 = _
  rw [show removeSubAux pat (c :: cs) 0 =
      if pat.isPrefixOf (c :: cs) ∧ pat ≠ [] then removeSubAux pat cs (pat.length - 1)
      else c :: removeSubAux pat cs 0 from rfl]
  rw [if_neg (by
    rintro ⟨h1, _⟩
    exact h (List.isPrefixOf_iff_prefix.1 h1))]
  rfl

/-- Emitting a region in which no match can start. -/
theorem removeSub_safe (pat : List Char) :
    ∀ (u t : List Char), (∀ k, k < u.length → ¬ pat <+: (u.drop k ++ t)) →
      removeSub pat (u ++ t) = u ++ removeSub pat t := by
  intro u
  induction u with
  | nil =>
    intro t _
    simp
  | cons c u' ih =>
    intro t hk
    have h0 : ¬ pat <+: (c :: (u' ++ t)) := by
      have := hk 0 (by simp)
      simpa using this
    have hrest : ∀ k, k < u'.length → ¬ pat <+: (u'.drop k ++ t) := by
      intro k hklt
      have := hk (k + 1) (by simp only [List.length_cons]; omega)
      simpa using this
    rw [List.cons_append, removeSub_emit h0, ih t hrest]
    simp

theorem preSplit {L x y : List Char} (h : L <+: x ++ y) :
    L <+: x ∨ (x <+: L ∧ L.drop x.length <+: y) := by
  induction x generalizing L with
  | nil =>
    right
    exact ⟨⟨L, rfl⟩, by simpa using h⟩
  | cons c x' ih =>
    cases L with
    | nil =>
      left
      exact ⟨c :: x', rfl⟩
    | cons d L' =>
      obtain ⟨t, ht⟩ := h
      simp only [List.cons_append] at ht
      injection ht with h1 h2
      subst h1
      rcases ih ⟨t, h2⟩ with h3 | ⟨h3, h4⟩
      · left
        obtain ⟨t', ht'⟩ := h3
        exact ⟨t', by rw [List.cons_append, ht']⟩
      · right
        refine ⟨?_, ?_⟩
        · obtain ⟨t', ht'⟩ := h3
          exact ⟨t', by rw [List.cons_append, ht']⟩
        · simpa using h4

theorem preTake {x y : List Char} (h : x <+: y) : x = y.take x.length := by
  obtain ⟨t, rfl⟩ := h
  rw [List.take_left]

theorem preLen {x y : List Char} (h : x <+: y) : x.length ≤ y.length := by
  obtain ⟨t, rfl⟩ := h
  simp

theorem preHead {x : List Char} {c : Char} {t : List Char}
    (h : x <+: c :: t) (hx : x ≠ []) : x.head? = some c := by
  obtain ⟨u, hu⟩ := h
  cases x with
  | nil => exact absurd rfl hx
  | cons d x' =>
    injection hu with h1 _
    rw [h1]
    rfl

theorem infix_join_of_mem {w : List Char} :
    ∀ {ws : List (List Char)}, w ∈ ws → w <:+: joinWs ws := by
  intro ws
  induction ws with
  | nil =>
    intro h
    cases h
  | cons x xs ih =>
    intro h
    rcases List.mem_cons.1 h with rfl | h2
    · cases xs with
      | nil => exact ⟨[], [], by simp [joinWs_single]⟩
      | cons y ys => exact ⟨[], ' ' :: joinWs (y :: ys), by simp [joinWs_cons₂]⟩
    · cases xs with
      | nil => cases h2
      | cons y ys =>
        obtain ⟨u, v, huv⟩ := ih h2
        exact ⟨x ++ ' ' :: u, v, by
          rw [joinWs_cons₂, ← huv]
          simp⟩

theorem infix_of_infix_tailJoin {p w : List Char} {ws : List (List Char)}
    (hws : ws ≠ []) (h : p <:+: joinWs ws) : p <:+: joinWs (w :: ws) := by
  obtain ⟨u, v, huv⟩ := h
  obtain ⟨x, xs, rfl⟩ : ∃ x xs, ws = x :: xs := by
    cases ws with
    | nil => exact absurd rfl hws
    | cons x xs => exact ⟨x, xs, rfl⟩
  exact ⟨w ++ ' ' :: u, v, by rw [joinWs_cons₂, ← huv]; simp⟩

/-- The five characters before the single space of the opening marker. -/
def accentHead : List Char := ("<span").data

/-- The part of the opening marker after its single space. -/
def accentTail : List Char := accentOpen.drop 6

theorem accent_split : accentOpen = accentHead ++ ' ' :: accentTail := by decide

theorem headMem {l : List Char} {c : Char} (h : l.head? = some c) : c ∈ l := by
  cases l with
  | nil => cases h
  | cons d t =>
    injection h with h
    subst h
    exact List.mem_cons_self _ _

theorem infix_trans₂ {p w s : List Char} (h1 : p <:+: w) (h2 : w <:+: s) :
    p <:+: s := by
  obtain ⟨u, v, huv⟩ := h1
  obtain ⟨x, y, hxy⟩ := h2
  exact ⟨x ++ u, v ++ y, by rw [← hxy, ← huv]; simp⟩

theorem infix_of_isPre {p s : List Char} (h : p <+: s) : p <:+: s := by
  obtain ⟨t, rfl⟩ := h
  exact ⟨[], t, by simp⟩

theorem infix_of_isSuf {p s : List Char} (h : p <:+ s) : p <:+: s := by
  obtain ⟨t, rfl⟩ := h
  exact ⟨t, [], by simp⟩

/-- A space-free string cannot have the opening marker as a prefix. -/
theorem scSpaceFree {x : List Char} (hx : ∀ c ∈ x, pyIsSpace c = false) :
    ¬ accentOpen <+: x := by
  intro h
  obtain ⟨u, rfl⟩ := h
  have hm : (' ' : Char) ∈ accentOpen := by decide
  have := hx ' ' (List.mem_append.2 (Or.inl hm))
  exact absurd this (by decide)

/-- A space-free string of length other than 5 followed by a space can
never start an opening-marker match. -/
theorem scGen {x : List Char} (hx : ∀ c ∈ x, pyIsSpace c = false)
    (hlen : x.length ≠ 5) (t : List Char) :
    ¬ accentOpen <+: (x ++ ' ' :: t) := by
  intro h
  rcases preSplit h with h1 | ⟨h1, h2⟩
  · exact scSpaceFree hx h1
  · rcases Nat.lt_or_ge x.length 5 with h5 | h5
    · have hne : accentOpen.drop x.length ≠ [] := by
        have hL : accentOpen.length = 39 := by decide
        intro hcon
        have := congrArg List.length hcon
        simp only [List.length_drop, List.length_nil, hL] at this
        omega
      have hh := preHead h2 hne
      have hdec : ∀ n, n < 5 → (accentOpen.drop n).head? ≠ some ' ' := by decide
      exact hdec x.length h5 hh
    · have h6 : 6 ≤ x.length := by omega
      have hxe := preTake h1
      have hsp : (' ' : Char) ∈ accentOpen.take x.length := by
        rw [show x.length = 6 + (x.length - 6) from by omega, List.take_add]
        exact List.mem_append.2 (Or.inl (by decide))
      rw [← hxe] at hsp
      exact absurd (hx ' ' hsp) (by decide)

/-- The only way an opening-marker match can start at a space-gap is that
the five characters before the gap are `"<span"` and the text after the
gap starts with the marker's tail. -/
theorem sc5 {x : List Char} (hlen : x.length = 5) {t : List Char}
    (h : accentOpen <+: (x ++ ' ' :: t)) :
    x = accentHead ∧ accentTail <+: t := by
  rcases preSplit h with h1 | ⟨h1, h2⟩
  · have hle := preLen h1
    have hL : accentOpen.length = 39 := by decide
    omega
  · have hx : x = accentOpen.take 5 := by
      rw [← hlen]
      exact preTake h1
    have hxa : x = accentHead := hx.trans (by decide)
    refine ⟨hxa, ?_⟩
    rw [hlen, show accentOpen.drop 5 = ' ' :: accentTail from by decide] at h2
    obtain ⟨u, hu⟩ := h2
    injection hu with _ h3
    exact ⟨u, h3⟩

theorem removeSub_of_noInfix {pat : List Char} (_hp : pat ≠ []) :
    ∀ {s : List Char}, ¬ pat <:+: s → removeSub pat s = s := by
  intro s
  induction s with
  | nil => intro _; rfl
  | cons c cs ih =>
    intro h
    have h0 : ¬ pat <+: (c :: cs) := fun hpre => h (infix_of_isPre hpre)
    rw [removeSub_emit h0, ih]
    intro hcon
    obtain ⟨u, v, huv⟩ := hcon
    exact h ⟨c :: u, v, by rw [← huv]; simp⟩

/-- A token of the highlighted output: the word together with whether it
was wrapped in the highlight markers. -/
def tokText (t : List Char × Bool) : List Char :=
  if t.2 then wrapAccent t.1 else t.1

/-- The same token after the opening marker has been removed. -/
def tokTextR (t : List Char × Bool) : List Char :=
  if t.2 then t.1 ++ accentClose else t.1

theorem tokText_true (w : List Char) : tokText (w, true) = wrapAccent w := rfl

theorem tokText_false (w : List Char) : tokText (w, false) = w := rfl

theorem tokTextR_true (w : List Char) : tokTextR (w, true) = w ++ accentClose := rfl

theorem tokTextR_false (w : List Char) : tokTextR (w, false) = w := rfl

theorem spaceFree_append {x y : List Char} (hx : ∀ c ∈ x, pyIsSpace c = false)
    (hy : ∀ c ∈ y, pyIsSpace c = false) : ∀ c ∈ x ++ y, pyIsSpace c = false := by
  intro c hc
  rcases List.mem_append.1 hc with h | h
  · exact hx c h
  · exact hy c h

theorem spaceFree_drop {x : List Char} (hx : ∀ c ∈ x, pyIsSpace c = false)
    (k : Nat) : ∀ c ∈ x.drop k, pyIsSpace c = false :=
  fun c hc => hx c ((List.drop_sublist k x).subset hc)

/-- No opening marker occurs inside a space-free string. -/
theorem no_open_infix_of_spaceFree {s : List Char}
    (hs : ∀ c ∈ s, pyIsSpace c = false) : ¬ accentOpen <:+: s := by
  intro h
  obtain ⟨u, v, huv⟩ := h
  have hm : (' ' : Char) ∈ s := by
    rw [← huv]
    exact List.mem_append.2 (Or.inl (List.mem_append.2 (Or.inr (by decide))))
  exact absurd (hs ' ' hm) (by decide)

/-- If a word ends in `"<span"` and the next word starts with the marker
tail, the opening marker occurs in the joined word list. -/
theorem open_infix_mk {w : List Char} {k : Nat} (hk : w.drop k = accentHead)
    {w₂ : List Char} (hw₂ : accentTail <+: w₂) (ws : List (List Char)) :
    accentOpen <:+: joinWs (w :: w₂ :: ws) := by
  obtain ⟨v, hv⟩ := hw₂
  have hT : ∃ t, joinWs (w₂ :: ws) = w₂ ++ t := by
    cases ws with
    | nil => exact ⟨[], by simp [joinWs_single]⟩
    | cons x xs => exact ⟨' ' :: joinWs (x :: xs), by rw [joinWs_cons₂]⟩
  obtain ⟨t, ht⟩ := hT
  refine ⟨w.take k, v ++ t, ?_⟩
  rw [joinWs_cons₂, ht, ← hv, accent_split]
  conv_rhs => rw [← List.take_append_drop k w, hk]
  simp [List.append_assoc]

/-- If the marker tail is a prefix of the joined token texts of a word
list, it is a prefix of the first word itself. -/
theorem tail_pre_head {w₂ : List Char} {m₂ : Bool} {rest₂ : List (List Char × Bool)}
    (hwords : ∀ x ∈ ((w₂, m₂) :: rest₂).map Prod.fst,
      x ≠ [] ∧ ∀ c ∈ x, pyIsSpace c = false)
    (h : accentTail <+: joinWs (((w₂, m₂) :: rest₂).map tokText)) :
    accentTail <+: w₂ := by
  cases m₂ with
  | true =>
    exfalso
    have hJ : ∃ Z, joinWs (((w₂, true) :: rest₂).map tokText) = accentOpen ++ Z := by
      cases rest₂ with
      | nil =>
        exact ⟨w₂ ++ accentClose, by
          simp [joinWs_single, tokText_true, wrapAccent, List.append_assoc]⟩
      | cons a as =>
        exact ⟨w₂ ++ accentClose ++ ' ' :: joinWs ((a :: as).map tokText), by
          simp [joinWs_cons₂, tokText_true, wrapAccent, List.append_assoc]⟩
    obtain ⟨Z, hZ⟩ := hJ
    rw [hZ] at h
    rcases preSplit h with h1 | ⟨h1, _⟩
    · exact absurd h1 (by decide)
    · have hl := preLen h1
      have h39 : accentOpen.length = 39 := by decide
      have h33 : accentTail.length = 33 := by decide
      omega
  | false =>
    have hJ : ∃ z, joinWs (((w₂, false) :: rest₂).map tokText) = w₂ ++ z ∧
        (z = [] ∨ ∃ J₂, z = ' ' :: J₂) := by
      cases rest₂ with
      | nil => exact ⟨[], by simp [joinWs_single, tokText_false], Or.inl rfl⟩
      | cons a as =>
        exact ⟨' ' :: joinWs ((a :: as).map tokText), by
          simp [joinWs_cons₂, tokText_false], Or.inr ⟨_, rfl⟩⟩
    obtain ⟨z, hz, hzc⟩ := hJ
    rw [hz] at h
    rcases preSplit h with h1 | ⟨h1, h2⟩
    · exact h1
    · have h33 : accentTail.length = 33 := by decide
      have hlen := preLen h1
      by_cases hd0 : accentTail.drop w₂.length = []
      · have h33le : 33 ≤ w₂.length := by
          have := congrArg List.length hd0
          simp only [List.length_drop, List.length_nil, h33] at this
          omega
        have hw33 : w₂.length = 33 := by omega
        have hw2eq : w₂ = accentTail := by
          rw [preTake h1, hw33, show accentTail.take 33 = accentTail from by decide]
        rw [hw2eq]
      · exfalso
        rcases hzc with rfl | ⟨J₂, rfl⟩
        · obtain ⟨t, ht⟩ := h2
          cases hcc : accentTail.drop w₂.length with
          | nil => exact hd0 hcc
          | cons e es =>
            rw [hcc] at ht
            cases ht
        · have hh := preHead h2 hd0
          have hmem2 : (' ' : Char) ∈ accentTail :=
            (List.drop_sublist _ _).subset (headMem hh)
          have hsf : ∀ c ∈ accentTail, pyIsSpace c = false := by decide
          exact absurd (hsf ' ' hmem2) (by decide)

/-- No opening-marker match can start inside a space-free chunk followed
by a space and the joined token texts, unless the chunk ends in `"<span"`
and the next word starts with the marker tail. -/
theorem open_safe_q {x : List Char} (hsf : ∀ c ∈ x, pyIsSpace c = false)
    {w₂ : List Char} {m₂ : Bool} {rest₂ : List (List Char × Bool)}
    (hwords : ∀ y ∈ ((w₂, m₂) :: rest₂).map Prod.fst,
      y ≠ [] ∧ ∀ c ∈ y, pyIsSpace c = false)
    (hx : ¬ (x = accentHead ∧ accentTail <+: w₂)) :
    ¬ accentOpen <+: (x ++ ' ' :: joinWs (((w₂, m₂) :: rest₂).map tokText)) := by
  intro h
  by_cases h5 : x.length = 5
  · obtain ⟨hxh, htail⟩ := sc5 h5 h
    exact hx ⟨hxh, tail_pre_head hwords htail⟩
  · exact scGen hsf h5 _ h

/-- First pass of marker removal: deleting every occurrence of the opening
marker from the joined annotated tokens strips exactly the per-token
opening markers, provided the joined plain words contain no occurrence of
the opening marker. -/
theorem pass1 :
    ∀ annot : List (List Char × Bool),
      (∀ w ∈ annot.map Prod.fst, w ≠ [] ∧ ∀ c ∈ w, pyIsSpace c = false) →
      ¬ accentOpen <:+: joinWs (annot.map Prod.fst) →
      removeSub accentOpen (joinWs (annot.map tokText)) =
        joinWs (annot.map tokTextR) := by
  intro annot
  induction annot with
  | nil => intro _ _; rfl
  | cons hd rest ih =>
    obtain ⟨w, m⟩ := hd
    intro hwords hno
    have hw : w ≠ [] ∧ ∀ c ∈ w, pyIsSpace c = false := hwords w (by simp)
    cases rest with
    | nil =>
      cases m with
      | false =>
        simp only [List.map_cons, List.map_nil, tokText_false, tokTextR_false]
        rw [joinWs_single]
        refine removeSub_of_noInfix (by decide) ?_
        exact no_open_infix_of_spaceFree hw.2
      | true =>
        simp only [List.map_cons, List.map_nil, tokText_true, tokTextR_true]
        rw [joinWs_single, joinWs_single, wrapAccent, List.append_assoc]
        rw [removeSub_match (by decide) ⟨w ++ accentClose, rfl⟩
          (fun hcon => (by decide : accentOpen ≠ []) (List.append_eq_nil.1 hcon).1)]
        rw [List.drop_left]
        refine removeSub_of_noInfix (by decide) ?_
        exact no_open_infix_of_spaceFree (spaceFree_append hw.2 (by decide))
    | cons hd₂ rest₂ =>
      obtain ⟨w₂, m₂⟩ := hd₂
      have hwords₂ : ∀ x ∈ ((w₂, m₂) :: rest₂).map Prod.fst,
          x ≠ [] ∧ ∀ c ∈ x, pyIsSpace c = false := by
        intro x hx
        refine hwords x ?_
        simp only [List.map_cons] at hx ⊢
        exact List.mem_cons_of_mem _ hx
      have hnoTail : ¬ accentOpen <:+: joinWs (((w₂, m₂) :: rest₂).map Prod.fst) := by
        intro hcon
        refine hno ?_
        simp only [List.map_cons] at hcon ⊢
        exact infix_of_infix_tailJoin (by simp) hcon
      have hIH := ih hwords₂ hnoTail
      have hne5 : ∀ {k : Nat} (x : List Char), x = (w ++ accentClose).drop k →
          k ≤ w.length + 7 → x = accentHead → False := by
        intro k x hxe hkle hxh
        have hx5 : x.length = 5 := by rw [hxh]; decide
        have hR7 : accentClose.length = 7 := by decide
        have hxl : x.length = w.length + 7 - k := by
          rw [hxe]
          simp only [List.length_drop, List.length_append, hR7]
        have hk2 : k = w.length + 2 := by omega
        have hx2 : x = accentClose.drop 2 := by
          rw [hxe, hk2, ← List.drop_drop, List.drop_left]
        rw [hx2] at hxh
        exact absurd hxh (by decide)
      cases m with
      | false =>
        have hsafe : ∀ k, k < (w ++ [' ']).length →
            ¬ accentOpen <+:
              ((w ++ [' ']).drop k ++ joinWs (((w₂, m₂) :: rest₂).map tokText)) := by
          intro k hk
          simp only [List.length_append, List.length_cons, List.length_nil] at hk
          have hkle : k ≤ w.length := by omega
          rw [List.drop_append_of_le_length hkle, List.append_assoc,
            List.singleton_append]
          refine open_safe_q (spaceFree_drop hw.2 k) hwords₂ ?_
          rintro ⟨hxh, htw⟩
          exact hno (by
            simp only [List.map_cons]
            exact open_infix_mk hxh htw _)
        have hS := removeSub_safe accentOpen (w ++ [' '])
          (joinWs (((w₂, m₂) :: rest₂).map tokText)) hsafe
        simp only [List.map_cons] at hS hIH
        simp only [List.append_assoc, List.singleton_append] at hS
        simp only [List.map_cons, tokText_false, tokTextR_false]
        rw [joinWs_cons₂, joinWs_cons₂, hS, hIH]
      | true =>
        have hsafe : ∀ k, k < ((w ++ accentClose) ++ [' ']).length →
            ¬ accentOpen <+:
              (((w ++ accentClose) ++ [' ']).drop k ++
                joinWs (((w₂, m₂) :: rest₂).map tokText)) := by
          intro k hk
          simp only [List.length_append, List.length_cons, List.length_nil] at hk
          have hR7 : accentClose.length = 7 := by decide
          have hkle : k ≤ (w ++ accentClose).length := by
            simp only [List.length_append, hR7]
            omega
          rw [List.drop_append_of_le_length hkle, List.append_assoc,
            List.singleton_append]
          refine open_safe_q
            (spaceFree_drop (spaceFree_append hw.2 (by decide)) k) hwords₂ ?_
          rintro ⟨hxh, _⟩
          refine hne5 ((w ++ accentClose).drop k) rfl ?_ hxh
          simp only [List.length_append, hR7] at hkle
          omega
        have hS := removeSub_safe accentOpen ((w ++ accentClose) ++ [' '])
          (joinWs (((w₂, m₂) :: rest₂).map tokText)) hsafe
        simp only [List.map_cons] at hS hIH
        simp only [List.append_assoc, List.singleton_append] at hS
        simp only [List.map_cons, tokText_true, tokTextR_true]
        rw [joinWs_cons₂, joinWs_cons₂, wrapAccent, List.append_assoc,
          List.append_assoc]
        rw [removeSub_match (by decide)
          ⟨w ++ (accentClose ++ ' ' ::
            joinWs (tokText (w₂, m₂) :: rest₂.map tokText)), rfl⟩
          (fun hcon => (by decide : accentOpen ≠ []) (List.append_eq_nil.1 hcon).1)]
        rw [List.drop_left, hS, hIH]
        simp

theorem close_not_infix_word {w : List Char} {ws : List (List Char)}
    (hmem : w ∈ ws) (hno : ¬ accentClose <:+: joinWs ws) :
    ¬ accentClose <:+: w :=
  fun h => hno (infix_trans₂ h (infix_join_of_mem hmem))

theorem infix_of_pre_drop {p w : List Char} {k : Nat} (h : p <+: w.drop k) :
    p <:+: w :=
  infix_trans₂ (infix_of_isPre h)
    (infix_of_isSuf ⟨w.take k, List.take_append_drop k w⟩)

/-- No closing-marker match can start inside a word of the joined word
list, whatever follows the word in the rendered output. -/
theorem close_safe_q {w : List Char} {ws : List (List Char)} (hmem : w ∈ ws)
    (hno : ¬ accentClose <:+: joinWs ws) {k : Nat} (hk : k < w.length)
    {T : List Char}
    (hT : T = [] ∨ T = accentClose ∨ (∃ J, T = accentClose ++ ' ' :: J) ∨
      ∃ J, T = ' ' :: J) :
    ¬ accentClose <+: (w.drop k ++ T) := by
  intro h
  rcases preSplit h with h1 | ⟨h1, h2⟩
  · exact close_not_infix_word hmem hno (infix_of_pre_drop h1)
  · have hlenR : accentClose.length = 7 := by decide
    have hld : (w.drop k).length = w.length - k := by simp
    have hle := preLen h1
    by_cases h7 : (w.drop k).length = 7
    · have hwk : w.drop k = accentClose := by
        rw [preTake h1, h7, show accentClose.take 7 = accentClose from by decide]
      exact close_not_infix_word hmem hno
        (infix_of_isSuf ⟨w.take k, by rw [← hwk, List.take_append_drop]⟩)
    · have hd1 : 1 ≤ (w.drop k).length := by omega
      have hd7 : (w.drop k).length < 7 := by omega
      have hdne : accentClose.drop (w.drop k).length ≠ [] := by
        intro hcon
        have := congrArg List.length hcon
        simp only [List.length_drop, hlenR, List.length_nil] at this
        omega
      rcases hT with rfl | rfl | ⟨J, rfl⟩ | ⟨J, rfl⟩
      · obtain ⟨t, ht⟩ := h2
        cases hcc : accentClose.drop (w.drop k).length with
        | nil => exact hdne hcc
        | cons e es =>
          rw [hcc] at ht
          cases ht
      · have hb : ∀ d, d < 7 → 1 ≤ d → ¬ accentClose.drop d <+: accentClose := by
          decide
        exact hb _ hd7 hd1 h2
      · rcases preSplit h2 with h3 | ⟨h3, _⟩
        · have hb : ∀ d, d < 7 → 1 ≤ d → ¬ accentClose.drop d <+: accentClose := by
            decide
          exact hb _ hd7 hd1 h3
        · have hcl := preLen h3
          simp only [List.length_drop, hlenR] at hcl
          omega
      · have hh := preHead h2 hdne
        have hmem2 : (' ' : Char) ∈ accentClose :=
          (List.drop_sublist _ _).subset (headMem hh)
        have hsf : ∀ c ∈ accentClose, pyIsSpace c = false := by decide
        exact absurd (hsf ' ' hmem2) (by decide)

/-- Seq pass of marker removal: deleting every occurrence of the
closing marker from the output of the first pass recovers the plain
joined words, provided they contain no occurrence of the closing
marker. -/
theorem pass2 :
    ∀ annot : List (List Char × Bool),
      (∀ w ∈ annot.map Prod.fst, w ≠ [] ∧ ∀ c ∈ w, pyIsSpace c = false) →
      ¬ accentClose <:+: joinWs (annot.map Prod.fst) →
      removeSub accentClose (joinWs (annot.map tokTextR)) =
        joinWs (annot.map Prod.fst) := by
  intro annot
  induction annot with
  | nil => intro _ _; rfl
  | cons hd rest ih =>
    obtain ⟨w, m⟩ := hd
    intro hwords hno
    have hmemw : w ∈ ((w, m) :: rest).map Prod.fst := by simp
    cases rest with
    | nil =>
      cases m with
      | false =>
        simp only [List.map_cons, List.map_nil, tokTextR_false]
        rw [joinWs_single]
        have hsafe : ∀ k, k < w.length →
            ¬ accentClose <+: (w.drop k ++ ([] : List Char)) := by
          intro k hk
          exact close_safe_q hmemw hno hk (Or.inl rfl)
        have hS := removeSub_safe accentClose w [] hsafe
        simp only [List.map_cons, List.map_nil, joinWs_single] at hno hmemw hS ⊢
        simpa [removeSub_nil] using hS
      | true =>
        simp only [List.map_cons, List.map_nil, tokTextR_true]
        rw [joinWs_single, joinWs_single]
        simp only [List.map_cons, List.map_nil, joinWs_single] at hno hmemw
        have hsafe : ∀ k, k < w.length →
            ¬ accentClose <+: (w.drop k ++ accentClose) :=
          fun k hk => close_safe_q hmemw hno hk (Or.inr (Or.inl rfl))
        rw [removeSub_safe accentClose w accentClose hsafe]
        rw [removeSub_match (by decide) ⟨[], by simp⟩ (by decide)]
        rw [show accentClose.drop accentClose.length = ([] : List Char) from by decide]
        simp [removeSub_nil]
    | cons hd₂ rest₂ =>
      obtain ⟨w₂, m₂⟩ := hd₂
      have hwords₂ : ∀ x ∈ ((w₂, m₂) :: rest₂).map Prod.fst,
          x ≠ [] ∧ ∀ c ∈ x, pyIsSpace c = false := by
        intro x hx
        refine hwords x ?_
        simp only [List.map_cons] at hx ⊢
        exact List.mem_cons_of_mem _ hx
      have hnoTail : ¬ accentClose <:+: joinWs (((w₂, m₂) :: rest₂).map Prod.fst) := by
        intro hcon
        refine hno ?_
        simp only [List.map_cons] at hcon ⊢
        exact infix_of_infix_tailJoin (by simp) hcon
      have hIH := ih hwords₂ hnoTail
      have hem : ∀ t : List Char, ¬ accentClose <+: (' ' :: t) := by
        intro t hcon
        have := preHead hcon (by decide)
        exact absurd this (by decide)
      cases m with
      | false =>
        have hsafe : ∀ k, k < w.length →
            ¬ accentClose <+:
              (w.drop k ++ ' ' :: joinWs (((w₂, m₂) :: rest₂).map tokTextR)) :=
          fun k hk => close_safe_q hmemw hno hk (Or.inr (Or.inr (Or.inr ⟨_, rfl⟩)))
        have hS := removeSub_safe accentClose w
          (' ' :: joinWs (((w₂, m₂) :: rest₂).map tokTextR)) hsafe
        simp only [List.map_cons] at hS hIH
        simp only [List.map_cons, tokTextR_false]
        rw [joinWs_cons₂, joinWs_cons₂, hS,
          removeSub_emit (hem (joinWs (tokTextR (w₂, m₂) :: rest₂.map tokTextR))),
          hIH]
      | true =>
        have hsafe : ∀ k, k < w.length →
            ¬ accentClose <+:
              (w.drop k ++
                (accentClose ++ ' ' :: joinWs (((w₂, m₂) :: rest₂).map tokTextR))) :=
          fun k hk => close_safe_q hmemw hno hk (Or.inr (Or.inr (Or.inl ⟨_, rfl⟩)))
        have hS := removeSub_safe accentClose w
          (accentClose ++ ' ' :: joinWs (((w₂, m₂) :: rest₂).map tokTextR)) hsafe
        simp only [List.map_cons] at hS hIH
        simp only [List.map_cons, tokTextR_true]
        rw [joinWs_cons₂, joinWs_cons₂, List.append_assoc, hS]
        rw [removeSub_match (by decide)
          ⟨' ' :: joinWs (tokTextR (w₂, m₂) :: rest₂.map tokTextR), rfl⟩
          (fun hcon => (by decide : accentClose ≠ []) (List.append_eq_nil.1 hcon).1)]
        rw [List.drop_left,
          removeSub_emit (hem (joinWs (tokTextR (w₂, m₂) :: rest₂.map tokTextR))),
          hIH]

theorem map_pair_tokText_true (l : List (List Char)) :
    (l.map (fun w => (w, true))).map tokText = l.map wrapAccent := by
  induction l with
  | nil => rfl
  | cons x xs ih => simp [tokText_true, ih]

theorem map_pair_tokText_false (l : List (List Char)) :
    (l.map (fun w => (w, false))).map tokText = l := by
  induction l with
  | nil => rfl
  | cons x xs ih => simp [tokText_false, ih]

theorem map_pair_fst (b : Bool) (l : List (List Char)) :
    (l.map (fun w => (w, b))).map Prod.fst = l := by
  induction l with
  | nil => rfl
  | cons x xs ih => simp [ih]

/-- Contribution of one opcode to `orig_html_parts`. -/
def origTok (ow : List (List Char)) (op : Opcode) : List (List Char) :=
  match op.tag with
  | DiffTag.eq => sliceOf ow op.i1 op.i2
  | DiffTag.repl => (sliceOf ow op.i1 op.i2).map wrapAccent
  | DiffTag.del => (sliceOf ow op.i1 op.i2).map wrapAccent
  | DiffTag.ins => []

/-- Contribution of one opcode to `rec_html_parts`. -/
def recTok (bw : List (List Char)) (op : Opcode) : List (List Char) :=
  match op.tag with
  | DiffTag.eq => sliceOf bw op.j1 op.j2
  | DiffTag.repl => (sliceOf bw op.j1 op.j2).map wrapAccent
  | DiffTag.ins => (sliceOf bw op.j1 op.j2).map wrapAccent
  | DiffTag.del => []

theorem origTok_annot {la lb : Nat} (ow : List (List Char)) :
    ∀ i j bs, WalkOK la lb i j bs →
      ∃ annot : List (List Char × Bool),
        (opcodesAux i j bs).foldr (fun op acc => origTok ow op ++ acc) [] =
          annot.map tokText ∧ annot.map Prod.fst = sliceOf ow i la := by
  intro i j bs h
  induction h with
  | last hi hj =>
    rename_i i j
    refine ⟨(sliceOf ow i la).map (fun w => (w, true)), ?_, ?_⟩
    · simp only [opcodesAux, foldr_concat_append, map_pair_tokText_true]
      by_cases h1 : i < la
      · by_cases h2 : j < lb
        · rw [if_pos ⟨h1, h2⟩]
          simp [origTok]
        · rw [if_neg (by tauto), if_pos h1]
          simp [origTok]
      · have hila : i = la := by omega
        subst hila
        rw [if_neg (by tauto), if_neg (by omega)]
        by_cases h2 : j < lb
        · rw [if_pos h2]
          simp [origTok, sliceOf_nil_of_ge ow (le_refl i)]
        · rw [if_neg h2]
          simp [sliceOf_nil_of_ge ow (le_refl i)]
    · rw [map_pair_fst]
  | cons hia hjb hkla hklb hrest ih =>
    rename_i i j a b k rest
    obtain ⟨A, hA1, hA2⟩ := ih
    refine ⟨(sliceOf ow i a).map (fun w => (w, true)) ++
      (sliceOf ow a (a + k)).map (fun w => (w, false)) ++ A, ?_, ?_⟩
    · simp only [opcodesAux, foldr_concat_append]
      have hgap : (if i < a ∧ j < b then [(⟨DiffTag.repl, i, a, j, b⟩ : Opcode)]
          else if i < a then [⟨DiffTag.del, i, a, j, b⟩]
          else if j < b then [⟨DiffTag.ins, i, a, j, b⟩]
          else []).foldr (fun op acc => origTok ow op ++ acc) [] =
            (sliceOf ow i a).map wrapAccent := by
        by_cases h1 : i < a
        · by_cases h2 : j < b
          · rw [if_pos ⟨h1, h2⟩]
            simp [origTok]
          · rw [if_neg (by tauto), if_pos h1]
            simp [origTok]
        · have hia2 : i = a := by omega
          subst hia2
          rw [if_neg (by tauto), if_neg (by omega)]
          by_cases h2 : j < b
          · rw [if_pos h2]
            simp [origTok, sliceOf_nil_of_ge ow (le_refl i)]
          · rw [if_neg h2]
            simp [sliceOf_nil_of_ge ow (le_refl i)]
      have heq : (if k ≠ 0 then [(⟨DiffTag.eq, a, a + k, b, b + k⟩ : Opcode)]
          else []).foldr (fun op acc => origTok ow op ++ acc) [] =
            sliceOf ow a (a + k) := by
        by_cases hk : k = 0
        · rw [if_neg (by omega)]
          subst hk
          simp [sliceOf_nil_of_ge ow (le_refl a)]
        · rw [if_pos (by omega)]
          simp [origTok]
      rw [hgap, heq, hA1]
      simp only [List.map_append, map_pair_tokText_true, map_pair_tokText_false,
        List.append_assoc]
    · simp only [List.map_append, map_pair_fst, hA2]
      rw [sliceOf_append ow hia (by omega), sliceOf_append ow (by omega) (by omega)]

theorem recTok_annot {la lb : Nat} (bw : List (List Char)) :
    ∀ i j bs, WalkOK la lb i j bs →
      ∃ annot : List (List Char × Bool),
        (opcodesAux i j bs).foldr (fun op acc => recTok bw op ++ acc) [] =
          annot.map tokText ∧ annot.map Prod.fst = sliceOf bw j lb := by
  intro i j bs h
  induction h with
  | last hi hj =>
    rename_i i j
    refine ⟨(sliceOf bw j lb).map (fun w => (w, true)), ?_, ?_⟩
    · simp only [opcodesAux, foldr_concat_append, map_pair_tokText_true]
      by_cases h2 : j < lb
      · by_cases h1 : i < la
        · rw [if_pos ⟨h1, h2⟩]
          simp [recTok]
        · rw [if_neg (by tauto), if_neg h1, if_pos h2]
          simp [recTok]
      · have hjlb : j = lb := by omega
        subst hjlb
        by_cases h1 : i < la
        · rw [if_neg (by tauto), if_pos h1]
          simp [recTok, sliceOf_nil_of_ge bw (le_refl j)]
        · rw [if_neg (by tauto), if_neg h1, if_neg (by omega)]
          simp [sliceOf_nil_of_ge bw (le_refl j)]
    · rw [map_pair_fst]
  | cons hia hjb hkla hklb hrest ih =>
    rename_i i j a b k rest
    obtain ⟨A, hA1, hA2⟩ := ih
    refine ⟨(sliceOf bw j b).map (fun w => (w, true)) ++
      (sliceOf bw b (b + k)).map (fun w => (w, false)) ++ A, ?_, ?_⟩
    · simp only [opcodesAux, foldr_concat_append]
      have hgap : (if i < a ∧ j < b then [(⟨DiffTag.repl, i, a, j, b⟩ : Opcode)]
          else if i < a then [⟨DiffTag.del, i, a, j, b⟩]
          else if j < b then [⟨DiffTag.ins, i, a, j, b⟩]
          else []).foldr (fun op acc => recTok bw op ++ acc) [] =
            (sliceOf bw j b).map wrapAccent := by
        by_cases h2 : j < b
        · by_cases h1 : i < a
          · rw [if_pos ⟨h1, h2⟩]
            simp [recTok]
          · rw [if_neg (by tauto), if_neg h1, if_pos h2]
            simp [recTok]
        · have hjb2 : j = b := by omega
          subst hjb2
          by_cases h1 : i < a
          · rw [if_neg (by tauto), if_pos h1]
            simp [recTok, sliceOf_nil_of_ge bw (le_refl j)]
          · rw [if_neg (by tauto), if_neg h1, if_neg (by omega)]
            simp [sliceOf_nil_of_ge bw (le_refl j)]
      have heq : (if k ≠ 0 then [(⟨DiffTag.eq, a, a + k, b, b + k⟩ : Opcode)]
          else []).foldr (fun op acc => recTok bw op ++ acc) [] =
            sliceOf bw b (b + k) := by
        by_cases hk : k = 0
        · rw [if_neg (by omega)]
          subst hk
          simp [sliceOf_nil_of_ge bw (le_refl b)]
        · rw [if_pos (by omega)]
          simp [recTok]
      rw [hgap, heq, hA1]
      simp only [List.map_append, map_pair_tokText_true, map_pair_tokText_false,
        List.append_assoc]
    · simp only [List.map_append, map_pair_fst, hA2]
      rw [sliceOf_append bw hjb (by omega), sliceOf_append bw (by omega) (by omega)]

/-- `orig_html_parts` is a list of annotated word tokens whose underlying
words are exactly the reference words. -/
theorem origParts_annot (ow bw : List (List Char)) :
    ∃ annot : List (List Char × Bool),
      origParts ow bw = annot.map tokText ∧ annot.map Prod.fst = ow := by
  obtain ⟨annot, h1, h2⟩ := origTok_annot ow 0 0 (matchingBlocks ow bw)
    (matchingBlocks_walkOK ow bw)
  refine ⟨annot, ?_, ?_⟩
  · exact h1
  · rw [h2]
    simp [sliceOf]

/-- `rec_html_parts` is a list of annotated word tokens whose underlying
words are exactly the candidate words. -/
theorem recParts_annot (ow bw : List (List Char)) :
    ∃ annot : List (List Char × Bool),
      recParts ow bw = annot.map tokText ∧ annot.map Prod.fst = bw := by
  obtain ⟨annot, h1, h2⟩ := recTok_annot bw 0 0 (matchingBlocks ow bw)
    (matchingBlocks_walkOK ow bw)
  refine ⟨annot, ?_, ?_⟩
  · exact h1
  · rw [h2]
    simp [sliceOf]

/-- C7: for the reference `"بسم الله الرحمن الرحيم"` and the candidate
`"بسم الله الرحمن"`, `get_diff_words` reports exactly the final reference
word as missing, with no extra and no replaced words. -/
theorem c7_basmala_diff :
    getDiffWords ("بسم الله الرحمن الرحيم").data ("بسم الله الرحمن").data =
      ⟨[("الرحيم").data], [], []⟩ := by decide

/-- C8: `normalize_arabic`, `get_diff_words` and `highlight_differences`
are total over their string input domains.  In this embedding all three
are total Lean functions (the recursion of the block matcher is
well-founded), so every input has a value and no exceptional outcome
exists; in particular `normalize_arabic("")` returns `""`. -/
theorem c8_totality :
    (∀ ta, normalizeArabic [] ta = []) ∧
      (∀ s ta, ∃ t, normalizeArabic s ta = t) ∧
      (∀ o r, ∃ d, getDiffWords o r = d) ∧
      (∀ o r, ∃ p, highlightDifferences o r = p) := by
  refine ⟨?_, fun s ta => ⟨_, rfl⟩, fun o r => ⟨_, rfl⟩, fun o r => ⟨_, rfl⟩⟩
  intro ta
  cases ta <;> rfl

/-- C4: comparing any string against itself yields a similarity of
`100.0` — including the both-empty case — and an empty diff for non-empty
inputs. -/
theorem c4_self_compare (s : List Char) :
    similarityPercent s s = 100 ∧
      (s ≠ [] → getDiffWords s s = ⟨[], [], []⟩) :=
  ⟨similarityPercent_self s, fun _ => diffOf_self _⟩

/-- Witness for C4 at the concrete input `"ab"`. -/
theorem c4_self_compare_witness :
    similarityPercent ("ab").data ("ab").data = 100 ∧
      getDiffWords ("ab").data ("ab").data = ⟨[], [], []⟩ :=
  ⟨(c4_self_compare ("ab").data).1,
    (c4_self_compare ("ab").data).2 (by decide)⟩

/-- C10: `get_diff_words` depends only on the whitespace-split word
sequences of its arguments; two inputs differing only in whitespace
layout give an all-empty diff even though the character-level similarity
percentage computed in `main` is below 100. -/
theorem c10_whitespace_invariance :
    (∀ o o' r r' : List Char, splitWs o = splitWs o' → splitWs r = splitWs r' →
      getDiffWords o r = getDiffWords o' r') ∧
      getDiffWords ("a b").data ("a  b").data = ⟨[], [], []⟩ ∧
      similarityPercent ("a b").data ("a  b").data < 100 := by
  refine ⟨?_, ?_, ?_⟩
  · intro o o' r r' h1 h2
    unfold getDiffWords
    rw [h1, h2]
  · have h : splitWs ("a b").data = splitWs ("a  b").data := by decide
    show diffOf (splitWs ("a b").data) (splitWs ("a  b").data) = _
    rw [h]
    exact diffOf_self _
  · have hM : seqMatches ("a b").data ("a  b").data = 3 := by decide
    have hl1 : (("a b").data).length = 3 := by decide
    have hl2 : (("a  b").data).length = 4 := by decide
    simp only [similarityPercent, seqRatio, pyRound2, roundHalfEven, hM, hl1, hl2]
    norm_num

/-- Witness for C10's congruence at concrete whitespace-variant inputs. -/
theorem c10_whitespace_invariance_witness :
    getDiffWords ("x y").data ("x").data = getDiffWords ("x  y ").data (" x").data :=
  c10_whitespace_invariance.1 _ _ _ _ (by decide) (by decide)

/-- C9 (counterexample): the input whose text is the opening marker
followed by `x` has whitespace-split words (`<span` and
`style='color:var(--accent-pink)'>x`) containing neither full marker
substring, yet stripping both markers from the first output of
`highlight_differences` yields `x` alone, not the words joined by single
spaces: the opening marker contains a space, so an occurrence can span a
word boundary of the rendered output and its removal deletes word
material. -/
theorem c9_counterexample :
    (∀ w ∈ splitWs (accentOpen ++ ('x' :: [])),
      ¬ accentOpen <:+: w ∧ ¬ accentClose <:+: w) ∧
    removeSub accentClose (removeSub accentOpen
        (highlightDifferences (accentOpen ++ ('x' :: []))
          (accentOpen ++ ('x' :: []))).1) ≠
      joinWs (splitWs (accentOpen ++ ('x' :: []))) := by
  decide

/-- C9 (amended): for every pair of input strings whose whitespace-joined
word sequences contain no occurrence of either marker substring, removing
every occurrence of the two markers from the first output of
`highlight_differences` yields exactly the reference words joined by
single spaces, and from the seq output the candidate words joined by
single spaces. -/
theorem c9_amended (o r : List Char)
    (hoO : ¬ accentOpen <:+: joinWs (splitWs o))
    (hoC : ¬ accentClose <:+: joinWs (splitWs o))
    (hrO : ¬ accentOpen <:+: joinWs (splitWs r))
    (hrC : ¬ accentClose <:+: joinWs (splitWs r)) :
    removeSub accentClose (removeSub accentOpen
        (highlightDifferences o r).1) = joinWs (splitWs o) ∧
    removeSub accentClose (removeSub accentOpen
        (highlightDifferences o r).2) = joinWs (splitWs r) := by
  constructor
  · show removeSub accentClose (removeSub accentOpen
      (if joinWs (origParts (splitWs o) (splitWs r)) = [] then joinWs (splitWs o)
       else joinWs (origParts (splitWs o) (splitWs r)))) = joinWs (splitWs o)
    by_cases hemp : joinWs (origParts (splitWs o) (splitWs r)) = []
    · rw [if_pos hemp]
      rw [removeSub_of_noInfix (by decide) hoO, removeSub_of_noInfix (by decide) hoC]
    · rw [if_neg hemp]
      obtain ⟨annot, h1, h2⟩ := origParts_annot (splitWs o) (splitWs r)
      rw [h1]
      have hwords : ∀ w ∈ annot.map Prod.fst,
          w ≠ [] ∧ ∀ c ∈ w, pyIsSpace c = false := by
        rw [h2]
        exact splitWs_wordOk o
      rw [pass1 annot hwords (by rw [h2]; exact hoO)]
      rw [pass2 annot hwords (by rw [h2]; exact hoC), h2]
  · show removeSub accentClose (removeSub accentOpen
      (if joinWs (recParts (splitWs o) (splitWs r)) = [] then joinWs (splitWs r)
       else joinWs (recParts (splitWs o) (splitWs r)))) = joinWs (splitWs r)
    by_cases hemp : joinWs (recParts (splitWs o) (splitWs r)) = []
    · rw [if_pos hemp]
      rw [removeSub_of_noInfix (by decide) hrO, removeSub_of_noInfix (by decide) hrC]
    · rw [if_neg hemp]
      obtain ⟨annot, h1, h2⟩ := recParts_annot (splitWs o) (splitWs r)
      rw [h1]
      have hwords : ∀ w ∈ annot.map Prod.fst,
          w ≠ [] ∧ ∀ c ∈ w, pyIsSpace c = false := by
        rw [h2]
        exact splitWs_wordOk r
      rw [pass1 annot hwords (by rw [h2]; exact hrO)]
      rw [pass2 annot hwords (by rw [h2]; exact hrC), h2]

/-- Witness for the amended C9 at concrete inputs `ab cd` and `ab x`. -/
theorem c9_amended_witness :
    (¬ accentOpen <:+: joinWs (splitWs ("ab cd").data)) ∧
    (¬ accentClose <:+: joinWs (splitWs ("ab cd").data)) ∧
    (¬ accentOpen <:+: joinWs (splitWs ("ab x").data)) ∧
    (¬ accentClose <:+: joinWs (splitWs ("ab x").data)) ∧
    (removeSub accentClose (removeSub accentOpen
        (highlightDifferences ("ab cd").data ("ab x").data).1) =
      joinWs (splitWs ("ab cd").data) ∧
    removeSub accentClose (removeSub accentOpen
        (highlightDifferences ("ab cd").data ("ab x").data).2) =
      joinWs (splitWs ("ab x").data)) :=
  ⟨by decide, by decide, by decide, by decide,
    c9_amended _ _ (by decide) (by decide) (by decide) (by decide)⟩

end Recitation
